import Mathlib

/-!
Shallow embedding of the quant-pipeline backtesting stack and verification of
its specification claims.

Embedded modules:
* `src/backtesting/events.py`               — `OrderEvent`, `FillEvent`
* `src/backtesting/risk_manager.py`         — `PortfolioRiskManager.assess_order`
* `src/execution/simulated_handler.py`      — `SimulatedExecutionHandler.execute_order`
* `src/backtesting/backtester.py`           — `Backtester.run_backtest`
* `src/backtesting/portfolio_backtester.py` — `PortfolioBacktester.run`

Python floats are modelled as `ℚ` (all quantities compared by the claims are
exact decimals); pandas NaN is modelled as `Option.none`; Python exceptions
(`ZeroDivisionError`, `KeyError`) are modelled with `Except String`.
The Batteries `Rat` arithmetic definitions are sealed; we re-open them so that
concrete runs of the model evaluate inside `decide`.
-/

set_option maxRecDepth 40000

attribute [local semireducible] Rat.add Rat.mul Rat.inv Rat.sub Rat.ofScientific

deriving instance DecidableEq for Except

/-- Python `int(x)`: truncation of a float toward zero. -/
def pyInt (q : ℚ) : ℤ := if q < 0 then ⌈q⌉ else ⌊q⌋

/-- events.py: `OrderEvent` — the intention to place an order.
The `datetime` timestamp is modelled as a natural number. -/
structure OrderEvent where
  timestamp : ℕ
  symbol : String
  order_type : String
  quantity : ℚ
  direction : String
deriving DecidableEq, Repr

/-- events.py: `FillEvent` — a filled order as returned by an execution handler. -/
structure FillEvent where
  timestamp : ℕ
  symbol : String
  direction : String
  quantity : ℚ
  fill_price : ℚ
  commission : ℚ
deriving DecidableEq, Repr

/-- events.py: `FillEvent.total_cost` —
`quantity * fill_price + commission` for a `"BUY"`,
`quantity * fill_price - commission` otherwise (the `else` branch is `SELL`). -/
def FillEvent.total_cost (f : FillEvent) : ℚ :=
  if f.direction = "BUY" then f.quantity * f.fill_price + f.commission
  else f.quantity * f.fill_price - f.commission

/-- risk_manager.py: the state of a `PortfolioRiskManager`:
the two constructor parameters plus the mutable `high_water_mark`. -/
structure RiskManager where
  max_trade_risk_pct : ℚ
  max_portfolio_drawdown_pct : ℚ
  high_water_mark : ℚ
deriving DecidableEq, Repr

/-- The state built by `PortfolioRiskManager.__init__`: `high_water_mark = 0.0`. -/
def PortfolioRiskManager.init (max_trade_risk_pct max_portfolio_drawdown_pct : ℚ) :
    RiskManager :=
  ⟨max_trade_risk_pct, max_portfolio_drawdown_pct, 0⟩

/-- The slice of the `portfolio_state` pandas Series that `assess_order` reads:
the `'total'` equity and the `'<symbol>_price'` entries (`price s` is the value
stored under key `s + "_price"`, `none` when the key is absent). -/
structure Snapshot where
  total : ℚ
  price : String → Option ℚ

/-- risk_manager.py, step 1 of `assess_order`:
`if portfolio_equity > self.high_water_mark: self.high_water_mark = portfolio_equity`. -/
def updateHWM (high_water_mark equity : ℚ) : ℚ :=
  if equity > high_water_mark then equity else high_water_mark

/-- risk_manager.py: the value returned by `assess_order` (the mutation of
`self.high_water_mark` is modelled separately in `assessOrder`).
`hwm` below is the already-updated high-water mark, exactly as in the source,
where the update happens before the drawdown division.  A zero divisor or a
zero price raises `ZeroDivisionError` in Python; a missing price key raises
`KeyError`; both are modelled as `Except.error` with distinct messages. -/
def assessOrderResult (m : RiskManager) (order : OrderEvent) (portfolio_state : Snapshot) :
    Except String (Option OrderEvent) :=
  let portfolio_equity := portfolio_state.total
  let hwm := updateHWM m.high_water_mark portfolio_equity
  if hwm = 0 then .error "ZeroDivisionError: drawdown division by zero high-water mark"
  else if (hwm - portfolio_equity) / hwm > m.max_portfolio_drawdown_pct
          ∧ order.direction = "BUY" then
    .ok none
  else if order.direction = "BUY" then
    match portfolio_state.price order.symbol with
    | none => .error "KeyError: missing symbol price in portfolio state"
    | some price =>
      let max_trade_value := portfolio_equity * m.max_trade_risk_pct
      let proposed_trade_value := order.quantity * price
      if proposed_trade_value > max_trade_value then
        if price = 0 then .error "ZeroDivisionError: sizing division by zero price"
        else
          let new_quantity := pyInt (max_trade_value / price)
          if new_quantity = 0 then .ok none
          else .ok (some { order with quantity := (new_quantity : ℚ) })
      else .ok (some order)
  else .ok (some order)

/-- risk_manager.py: `PortfolioRiskManager.assess_order`.  Returns the result
together with the manager state after the call; the high-water mark is updated
unconditionally at the start of the call, before any branch can raise. -/
def assessOrder (m : RiskManager) (order : OrderEvent) (portfolio_state : Snapshot) :
    Except String (Option OrderEvent) × RiskManager :=
  (assessOrderResult m order portfolio_state,
   { m with high_water_mark := updateHWM m.high_water_mark portfolio_state.total })

/-- A sequence of `assess_order` calls against one manager object: the
high-water mark is threaded through every call (in Python the mutation happens
even on calls that raise, because it precedes the division). -/
def assessSequence (m : RiskManager) :
    List (OrderEvent × Snapshot) → List (Except String (Option OrderEvent)) × RiskManager
  | [] => ([], m)
  | c :: rest =>
      let step := assessOrder m c.1 c.2
      let restRes := assessSequence step.2 rest
      (step.1 :: restRes.1, restRes.2)

/-- The divisor of the drawdown computation at each call of a sequence of
`assess_order` calls: the high-water mark as updated at the start of that call. -/
def drawdownDivisors (m : RiskManager) : List (OrderEvent × Snapshot) → List ℚ
  | [] => []
  | c :: rest =>
      updateHWM m.high_water_mark c.2.total :: drawdownDivisors (assessOrder m c.1 c.2).2 rest

lemma le_updateHWM (h e : ℚ) : e ≤ updateHWM h e := by
  unfold updateHWM; split <;> linarith

lemma updateHWM_le (h e : ℚ) : h ≤ updateHWM h e := by
  unfold updateHWM; split <;> linarith

lemma pyInt_eq_floor_of_nonneg {q : ℚ} (h : 0 ≤ q) : pyInt q = ⌊q⌋ := by
  unfold pyInt
  rw [if_neg (not_lt.mpr h)]

lemma pyInt_intCast (n : ℤ) : pyInt (n : ℚ) = n := by
  unfold pyInt
  rcases lt_or_le (n : ℚ) 0 with h | h
  · rw [if_pos h, Int.ceil_intCast]
  · rw [if_neg (not_lt.mpr h), Int.floor_intCast]

/-- C1: under a drawdown breach (computed with the updated high-water mark),
`assess_order` rejects a BUY with `None` and passes a SELL through unchanged. -/
theorem drawdown_gate_buy_rejected_sell_approved
    (m : RiskManager) (o : OrderEvent) (st : Snapshot)
    (hdd : 0 ≤ m.max_portfolio_drawdown_pct)
    (hbr : (updateHWM m.high_water_mark st.total - st.total) /
             updateHWM m.high_water_mark st.total > m.max_portfolio_drawdown_pct) :
    (o.direction = "BUY" → (assessOrder m o st).1 = .ok none) ∧
    (o.direction = "SELL" → (assessOrder m o st).1 = .ok (some o)) := by
  have hne : updateHWM m.high_water_mark st.total ≠ 0 := by
    intro h0
    rw [h0, div_zero] at hbr
    exact absurd hbr (not_lt.mpr hdd)
  constructor
  · intro hdir
    show assessOrderResult m o st = .ok none
    unfold assessOrderResult
    rw [if_neg hne, if_pos ⟨hbr, hdir⟩]
  · intro hdir
    show assessOrderResult m o st = .ok (some o)
    have hnb : o.direction ≠ "BUY" := by rw [hdir]; decide
    unfold assessOrderResult
    rw [if_neg hne, if_neg (by exact fun h => hnb h.2), if_neg hnb]

/-- Witness for the drawdown-gate theorem at a concrete breached state:
high-water mark 100, equity 50, ceiling 20%. -/
theorem drawdown_gate_buy_rejected_sell_approved_witness :
    (assessOrder ⟨1/50, 1/5, 100⟩ ⟨0, "AAPL", "MKT", 10, "BUY"⟩
        ⟨50, fun _ => some 10⟩).1 = .ok none ∧
    (assessOrder ⟨1/50, 1/5, 100⟩ ⟨0, "AAPL", "MKT", 10, "SELL"⟩
        ⟨50, fun _ => some 10⟩).1 = .ok (some ⟨0, "AAPL", "MKT", 10, "SELL"⟩) := by
  constructor
  · exact (drawdown_gate_buy_rejected_sell_approved ⟨1/50, 1/5, 100⟩
      ⟨0, "AAPL", "MKT", 10, "BUY"⟩ ⟨50, fun _ => some 10⟩ (by norm_num)
      (by show ((100:ℚ) - 50) / 100 > 1/5; norm_num [updateHWM])).1 rfl
  · exact (drawdown_gate_buy_rejected_sell_approved ⟨1/50, 1/5, 100⟩
      ⟨0, "AAPL", "MKT", 10, "SELL"⟩ ⟨50, fun _ => some 10⟩ (by norm_num)
      (by show ((100:ℚ) - 50) / 100 > 1/5; norm_num [updateHWM])).2 rfl

/-- C3: the derived `total_cost` of a fill adds the commission for a BUY and
subtracts it for a SELL; at quantity 10, price 50, commission 1 this gives
exactly 501 (BUY) and 499 (SELL). -/
theorem fill_total_cost_formula :
    (∀ (t : ℕ) (sym : String) (q p c : ℚ),
        (FillEvent.mk t sym "BUY" q p c).total_cost = q * p + c) ∧
    (∀ (t : ℕ) (sym : String) (q p c : ℚ),
        (FillEvent.mk t sym "SELL" q p c).total_cost = q * p - c) ∧
    (FillEvent.mk 0 "X" "BUY" 10 50 1).total_cost = 501 ∧
    (FillEvent.mk 0 "X" "SELL" 10 50 1).total_cost = 499 := by
  refine ⟨fun t sym q p c => ?_, fun t sym q p c => ?_, by decide, by decide⟩
  · simp [FillEvent.total_cost]
  · simp [FillEvent.total_cost]

/-- C2: position sizing of a BUY that passed the drawdown gate, with positive
equity `E`, nonnegative risk fraction and positive reference price `p`:
a proposal over the cap `E * max_trade_risk_pct` is floored down to
`⌊cap / p⌋` shares (rejected outright when that floor is zero), and the
resized notional stays within the cap; a proposal within the cap is approved
unchanged. -/
theorem buy_position_sizing
    (m : RiskManager) (o : OrderEvent) (st : Snapshot) (p : ℚ)
    (hr : 0 ≤ m.max_trade_risk_pct)
    (hdir : o.direction = "BUY")
    (hE : 0 < st.total)
    (hp : st.price o.symbol = some p)
    (hp0 : 0 < p)
    (hng : ¬ ((updateHWM m.high_water_mark st.total - st.total) /
                updateHWM m.high_water_mark st.total > m.max_portfolio_drawdown_pct)) :
    (o.quantity * p > st.total * m.max_trade_risk_pct ∧
        ⌊st.total * m.max_trade_risk_pct / p⌋ = 0 →
      (assessOrder m o st).1 = .ok none) ∧
    (o.quantity * p > st.total * m.max_trade_risk_pct ∧
        ⌊st.total * m.max_trade_risk_pct / p⌋ ≠ 0 →
      (assessOrder m o st).1 =
        .ok (some { o with quantity := (⌊st.total * m.max_trade_risk_pct / p⌋ : ℚ) }) ∧
      (⌊st.total * m.max_trade_risk_pct / p⌋ : ℚ) * p ≤ st.total * m.max_trade_risk_pct) ∧
    (¬ (o.quantity * p > st.total * m.max_trade_risk_pct) →
      (assessOrder m o st).1 = .ok (some o)) := by
  have hne : updateHWM m.high_water_mark st.total ≠ 0 :=
    ne_of_gt (lt_of_lt_of_le hE (le_updateHWM _ _))
  have hgate : ¬ ((updateHWM m.high_water_mark st.total - st.total) /
      updateHWM m.high_water_mark st.total > m.max_portfolio_drawdown_pct
      ∧ o.direction = "BUY") := fun h => hng h.1
  have hcap : 0 ≤ st.total * m.max_trade_risk_pct := mul_nonneg hE.le hr
  have hfl : pyInt (st.total * m.max_trade_risk_pct / p) =
      ⌊st.total * m.max_trade_risk_pct / p⌋ :=
    pyInt_eq_floor_of_nonneg (div_nonneg hcap hp0.le)
  have hbase : ∀ (r : Except String (Option OrderEvent)),
      assessOrderResult m o st = r ↔
      (if o.quantity * p > st.total * m.max_trade_risk_pct then
        (if ⌊st.total * m.max_trade_risk_pct / p⌋ = 0 then (Except.ok none : Except String (Option OrderEvent))
         else .ok (some { o with quantity := (⌊st.total * m.max_trade_risk_pct / p⌋ : ℚ) }))
       else .ok (some o)) = r := by
    intro r
    unfold assessOrderResult
    rw [if_neg hne, if_neg hgate, if_pos hdir, hp]
    simp only [if_neg (ne_of_gt hp0), hfl]
  refine ⟨?_, ?_, ?_⟩
  · rintro ⟨hgt, hz⟩
    show assessOrderResult m o st = .ok none
    rw [hbase, if_pos hgt, if_pos hz]
  · rintro ⟨hgt, hz⟩
    constructor
    · show assessOrderResult m o st = _
      rw [hbase, if_pos hgt, if_neg hz]
    · calc (⌊st.total * m.max_trade_risk_pct / p⌋ : ℚ) * p
          ≤ st.total * m.max_trade_risk_pct / p * p :=
            mul_le_mul_of_nonneg_right (Int.floor_le _) hp0.le
        _ = st.total * m.max_trade_risk_pct := div_mul_cancel₀ _ (ne_of_gt hp0)
  · intro hle
    show assessOrderResult m o st = .ok (some o)
    rw [hbase, if_neg hle]

/-- Witness for the sizing theorem: equity 100000, risk 2%, price 30,
proposed 100 shares (notional 3000 > cap 2000): resized to 66 shares,
notional 1980 ≤ 2000; and a 10-share proposal (300 ≤ 2000) passes unchanged. -/
theorem buy_position_sizing_witness :
    ((assessOrder ⟨1/50, 1/5, 0⟩ ⟨0, "AAPL", "MKT", 100, "BUY"⟩
        ⟨100000, fun _ => some 30⟩).1 =
      .ok (some ⟨0, "AAPL", "MKT", 66, "BUY"⟩)) ∧
    ((assessOrder ⟨1/50, 1/5, 0⟩ ⟨0, "AAPL", "MKT", 10, "BUY"⟩
        ⟨100000, fun _ => some 30⟩).1 = .ok (some ⟨0, "AAPL", "MKT", 10, "BUY"⟩)) := by
  constructor
  · have h := ((buy_position_sizing ⟨1/50, 1/5, 0⟩ ⟨0, "AAPL", "MKT", 100, "BUY"⟩
        ⟨100000, fun _ => some 30⟩ 30 (by norm_num) rfl (by norm_num) rfl (by norm_num)
        (by norm_num [updateHWM])).2.1 (by constructor <;> decide)).1
    rw [h]
    decide
  · exact (buy_position_sizing ⟨1/50, 1/5, 0⟩ ⟨0, "AAPL", "MKT", 10, "BUY"⟩
        ⟨100000, fun _ => some 30⟩ 30 (by norm_num) rfl (by norm_num) rfl (by norm_num)
        (by norm_num [updateHWM])).2.2 (by decide)

lemma drawdownDivisors_pos (m : RiskManager) (calls : List (OrderEvent × Snapshot))
    (h : ∀ c ∈ calls, 0 < c.2.total) :
    ∀ d ∈ drawdownDivisors m calls, 0 < d := by
  induction calls generalizing m with
  | nil => intro d hd; simp [drawdownDivisors] at hd
  | cons c rest ih =>
    intro d hd
    rw [drawdownDivisors] at hd
    rcases List.mem_cons.mp hd with h1 | h2
    · subst h1
      exact lt_of_lt_of_le (h c (List.mem_cons_self c rest)) (le_updateHWM _ _)
    · exact ih _ (fun x hx => h x (List.mem_cons_of_mem c hx)) d h2

lemma assessOrderResult_ne_dd_error (m : RiskManager) (o : OrderEvent) (st : Snapshot)
    (hne : updateHWM m.high_water_mark st.total ≠ 0) :
    assessOrderResult m o st ≠
      .error "ZeroDivisionError: drawdown division by zero high-water mark" := by
  unfold assessOrderResult
  dsimp only
  rw [if_neg hne]
  repeat' split
  all_goals simp

lemma assessSequence_ne_dd_error (m : RiskManager) (calls : List (OrderEvent × Snapshot))
    (h : ∀ c ∈ calls, 0 < c.2.total) :
    ∀ res ∈ (assessSequence m calls).1,
      res ≠ .error "ZeroDivisionError: drawdown division by zero high-water mark" := by
  induction calls generalizing m with
  | nil => intro res hres; simp [assessSequence] at hres
  | cons c rest ih =>
    intro res hres
    rw [assessSequence] at hres
    rcases List.mem_cons.mp hres with h1 | h2
    · subst h1
      exact assessOrderResult_ne_dd_error m c.1 c.2
        (ne_of_gt (lt_of_lt_of_le (h c (List.mem_cons_self c rest)) (le_updateHWM _ _)))
    · exact ih _ (fun x hx => h x (List.mem_cons_of_mem c hx)) res h2

/-- C10: over any sequence of `assess_order` calls on a freshly constructed
manager, if every snapshot's `'total'` equity is strictly positive then the
drawdown divisor (the high-water mark, updated from the equity before the
division) is strictly positive at every call and the drawdown
`ZeroDivisionError` branch is unreachable; if the very first call's equity is
non-positive, the divisor of that call is the initial value `0`. -/
theorem drawdown_divisor_positive (r dd : ℚ) (calls : List (OrderEvent × Snapshot)) :
    ((∀ c ∈ calls, 0 < c.2.total) →
      (∀ d ∈ drawdownDivisors (PortfolioRiskManager.init r dd) calls, 0 < d) ∧
      (∀ res ∈ (assessSequence (PortfolioRiskManager.init r dd) calls).1,
        res ≠ .error "ZeroDivisionError: drawdown division by zero high-water mark")) ∧
    (∀ c0 rest, calls = c0 :: rest → c0.2.total ≤ 0 →
      (drawdownDivisors (PortfolioRiskManager.init r dd) calls).head? = some 0) := by
  constructor
  · intro h
    exact ⟨drawdownDivisors_pos _ calls h, assessSequence_ne_dd_error _ calls h⟩
  · intro c0 rest hc hle
    subst hc
    rw [drawdownDivisors]
    have : updateHWM (PortfolioRiskManager.init r dd).high_water_mark c0.2.total = 0 := by
      unfold updateHWM PortfolioRiskManager.init
      rw [if_neg (not_lt.mpr hle)]
    rw [this]
    rfl

/-- Concrete call sequences for the divisor-positivity witness. -/
def c10calls : List (OrderEvent × Snapshot) :=
  [(⟨0, "A", "MKT", 1, "BUY"⟩, ⟨100, fun _ => some 10⟩),
   (⟨1, "A", "MKT", 1, "SELL"⟩, ⟨80, fun _ => some 10⟩)]

/-- A call sequence whose first snapshot has non-positive equity. -/
def c10callsNeg : List (OrderEvent × Snapshot) :=
  [(⟨0, "A", "MKT", 1, "BUY"⟩, ⟨-5, fun _ => some 10⟩)]

/-- Witness: on a two-call sequence with equities 100 and 80 every drawdown
divisor is positive, and on a first call with equity −5 the divisor is 0. -/
theorem drawdown_divisor_positive_witness :
    (0:ℚ) < (drawdownDivisors (PortfolioRiskManager.init (1/50) (1/5)) c10calls).headD 0 ∧
    (drawdownDivisors (PortfolioRiskManager.init (1/50) (1/5)) c10callsNeg).head? = some 0 := by
  constructor
  · exact ((drawdown_divisor_positive (1/50) (1/5) c10calls).1 (by decide)).1 _ (by decide)
  · exact (drawdown_divisor_positive (1/50) (1/5) c10callsNeg).2
      (⟨0, "A", "MKT", 1, "BUY"⟩, ⟨-5, fun _ => some 10⟩) [] rfl (by norm_num)

/-- simulated_handler.py: `SimulatedExecutionHandler` constructor parameters. -/
structure SimulatedExecutionHandler where
  slippage_pct : ℚ
  commission_per_trade : ℚ
deriving DecidableEq, Repr

/-- simulated_handler.py: `execute_order` — fills the order at
`current_price * (1 + slippage)` plus a fixed commission, never rejecting.
`slippage` is the value drawn by `random.uniform(-slippage_pct, slippage_pct)`;
the draw is supplied as an explicit input to keep the model deterministic. -/
def SimulatedExecutionHandler.execute_order (h : SimulatedExecutionHandler)
    (slippage : ℚ) (order : OrderEvent) (current_price : ℚ) : FillEvent :=
  { timestamp := order.timestamp
    symbol := order.symbol
    direction := order.direction
    quantity := order.quantity
    fill_price := current_price * (1 + slippage)
    commission := h.commission_per_trade }

/-- backtester.py: `Signal.replace(0, np.nan).ffill().fillna(0)` — each entry
becomes the last non-zero signal seen so far, `0` before any such signal. -/
def ffillSignals (carry : ℤ) : List ℤ → List ℤ
  | [] => []
  | s :: rest =>
      (if s = 0 then carry else s) :: ffillSignals (if s = 0 then carry else s) rest

/-- backtester.py: tail of `Close.pct_change()` given the previous close.
A zero previous close yields a non-finite value in pandas, modelled as
missing. -/
def pctChangeAux (prev : ℚ) : List ℚ → List (Option ℚ)
  | [] => []
  | c :: rest => (if prev = 0 then none else some ((c - prev) / prev)) :: pctChangeAux c rest

/-- backtester.py: `Close.pct_change()` — NaN at the first bar, then the
relative change from the previous bar. -/
def pctChange : List ℚ → List (Option ℚ)
  | [] => []
  | c :: rest => none :: pctChangeAux c rest

/-- pandas `Series.shift(1)`: NaN first, then the previous entries. -/
def shift1 {α : Type} (xs : List α) : List (Option α) :=
  none :: (xs.dropLast.map some)

/-- IEEE multiplication with NaN propagation, on the NaN-as-`none` model. -/
def optMul (a b : Option ℚ) : Option ℚ :=
  match a, b with
  | some x, some y => some (x * y)
  | _, _ => none

/-- pandas `Series.cumprod()` with its default `skipna=True`: NaN entries stay
NaN in the output but do not enter the running product. -/
def cumprodAux (acc : ℚ) : List (Option ℚ) → List (Option ℚ)
  | [] => []
  | none :: rest => none :: cumprodAux acc rest
  | some x :: rest => some (acc * x) :: cumprodAux (acc * x) rest

/-- backtester.py: `Backtester.run_backtest` on aligned `Close` and signal
series: `Position = Signal.replace(0, nan).ffill().fillna(0)`,
`Asset_Return = Close.pct_change()`,
`Strategy_Return = Position.shift(1) * Asset_Return`,
`Portfolio_Value = initial_capital * (1 + Strategy_Return).cumprod()`. -/
def Backtester.run_backtest (closes : List ℚ) (signals : List ℤ)
    (initial_capital : ℚ) : List (Option ℚ) :=
  let position := ffillSignals 0 signals
  let asset_return := pctChange closes
  let strategy_return :=
    List.zipWith optMul (shift1 (position.map (fun z : ℤ => (z : ℚ)))) asset_return
  (cumprodAux 1 (strategy_return.map (Option.map (fun r => 1 + r)))).map
    (Option.map (fun v => initial_capital * v))

/-- portfolio_backtester.py: the inputs of `PortfolioBacktester.run`.
`price_data` maps each ticker to its `Close` series (the only column read),
`signals_data` maps each signal source (tickers and/or `"Portfolio"`) to its
`signal` series, `target_weights` maps tickers to weights.  Series indices are
modelled as strictly increasing timestamps. -/
structure PBInputs where
  price_data : List (String × List (ℕ × ℚ))
  signals_data : List (String × List (ℕ × ℤ))
  target_weights : List (String × ℚ)
deriving Repr

/-- portfolio_backtester.py: `all_tickers = list(price_data.keys())`. -/
def allTickers (inp : PBInputs) : List String := inp.price_data.map Prod.fst

/-- The union of all signal-source dates (`all_signal_dates`). -/
def allSignalDates (inp : PBInputs) : List ℕ :=
  (inp.signals_data.map (fun pr => pr.2.map Prod.fst)).join

/-- Insertion into a sorted list of distinct dates (used to model
`sorted(list(price_dates | signal_dates))`). -/
def insertDate (x : ℕ) : List ℕ → List ℕ
  | [] => [x]
  | y :: ys => if x < y then x :: y :: ys else if x = y then y :: ys else y :: insertDate x ys

/-- Python `sorted(list(set(l)))`. -/
def sortedUnion (l : List ℕ) : List ℕ := l.foldr insertDate []

/-- portfolio_backtester.py: the master timeline — the sorted union of every
price date and every signal date. -/
def full_timeline (inp : PBInputs) : List ℕ :=
  sortedUnion ((inp.price_data.map (fun pr => pr.2.map Prod.fst)).join ++ allSignalDates inp)

/-- pandas `price_series.index.asof_loc(timestamp)` followed by `iloc`: the most
recent price at or before `t`, `none` when the whole series is later than `t`
(the `-1` branch in the source). -/
def asofPrice (series : List (ℕ × ℚ)) (t : ℕ) : Option ℚ :=
  ((series.filter (fun e => e.1 ≤ t)).getLast?).map Prod.snd

/-- The read `df.loc[timestamp, "signal"] if df is not None and timestamp in df.index
else 0` for one signal source. -/
def signalAt (inp : PBInputs) (source : String) (t : ℕ) : ℤ :=
  ((inp.signals_data.lookup source).bind (fun ser => ser.lookup t)).getD 0

/-- portfolio_backtester.py: the signal used for a ticker on a signal day:
`portfolio_signal if portfolio_signal != 0 else ticker_signal`. -/
def effectiveSignal (inp : PBInputs) (t : ℕ) (ticker : String) : ℤ :=
  let portfolio_signal := signalAt inp "Portfolio" t
  let ticker_signal := signalAt inp ticker t
  if portfolio_signal ≠ 0 then portfolio_signal else ticker_signal

/-- numpy `np.isclose(x, 0)` with default tolerances: `|x| ≤ atol = 1e-8`. -/
def npIsCloseZero (x : ℚ) : Bool := |x| ≤ 1 / 100000000

/-- portfolio_backtester.py: the signal-execution logic — builds the order (if
any) for one ticker from the effective signal, the ticker's carried position,
the day's (stale) `total` entry, the current price and the target weight. -/
def generateOrder (t : ℕ) (ticker : String) (signal : ℤ)
    (current_position total current_price weight : ℚ) : Option OrderEvent :=
  if signal = 1 ∧ npIsCloseZero current_position then
    let target_value := total * weight
    let quantity := pyInt (target_value / current_price)
    if 0 < quantity then some ⟨t, ticker, "MKT", (quantity : ℚ), "BUY"⟩ else none
  else if signal = -1 ∧ 0 < current_position then
    some ⟨t, ticker, "MKT", (pyInt current_position : ℚ), "SELL"⟩
  else if signal = 2 then
    let target_value := total * weight
    let target_quantity := pyInt (target_value / current_price)
    let trade_quantity : ℚ := (target_quantity : ℚ) - current_position
    if 0 < trade_quantity then some ⟨t, ticker, "MKT", (pyInt trade_quantity : ℚ), "BUY"⟩
    else if trade_quantity < 0 then
      some ⟨t, ticker, "MKT", (pyInt |trade_quantity| : ℚ), "SELL"⟩
    else none
  else none

/-- The mutable state of `PortfolioBacktester.run` between fills: the shared
cash pool, the per-ticker position columns, the risk manager object, the
accumulated trade log, and the number of slippage draws consumed so far. -/
structure SimState where
  cash : ℚ
  positions : String → ℚ
  risk : RiskManager
  trade_log : List FillEvent
  slipCount : ℕ

/-- One iteration of the `for ticker in all_tickers` loop on a signal day:
resolve the signal, skip missing/zero prices, generate the order, route it
through the risk manager (whose high-water mark updates even on rejection) and
the execution handler, and apply the fill to cash and the position column. -/
def processTicker (inp : PBInputs) (handler : SimulatedExecutionHandler)
    (slips : ℕ → ℚ) (t : ℕ) (dayTotal : ℚ) (prices : String → Option ℚ)
    (s : SimState) (ticker : String) : Except String SimState :=
  let signal := effectiveSignal inp t ticker
  if signal = 0 then .ok s else
  match prices ticker with
  | none => .ok s
  | some current_price =>
    if current_price = 0 then .ok s else
    match generateOrder t ticker signal (s.positions ticker) dayTotal current_price
        ((inp.target_weights.lookup ticker).getD 0) with
    | none => .ok s
    | some order =>
      let snapshot : Snapshot :=
        ⟨dayTotal, fun sym => if sym = ticker then some current_price else none⟩
      match assessOrder s.risk order snapshot with
      | (.error e, _) => .error e
      | (.ok none, risk1) => .ok { s with risk := risk1 }
      | (.ok (some approved_order), risk1) =>
        let fill_event :=
          handler.execute_order (slips s.slipCount) approved_order current_price
        let s1 := { s with risk := risk1, slipCount := s.slipCount + 1,
                           trade_log := s.trade_log ++ [fill_event] }
        if fill_event.direction = "BUY" then
          .ok { s1 with
                cash := s1.cash - fill_event.total_cost,
                positions := fun x =>
                  if x = ticker then s.positions ticker + fill_event.quantity
                  else s.positions x }
        else if fill_event.direction = "SELL" then
          .ok { s1 with
                cash := s1.cash + fill_event.total_cost,
                positions := fun x =>
                  if x = ticker then s.positions ticker - fill_event.quantity
                  else s.positions x }
        else .ok s1

/-- The whole `for ticker in all_tickers` loop of one signal day. -/
def processTickers (inp : PBInputs) (handler : SimulatedExecutionHandler)
    (slips : ℕ → ℚ) (t : ℕ) (dayTotal : ℚ) (prices : String → Option ℚ)
    (s : SimState) : List String → Except String SimState
  | [] => .ok s
  | ticker :: rest =>
      match processTicker inp handler slips t dayTotal prices s ticker with
      | .error e => .error e
      | .ok s1 => processTickers inp handler slips t dayTotal prices s1 rest

/-- The `current_holdings_value` computation: the sum, over tickers with an as-of price, of
position times that price (tickers with no price at or before `t` contribute
nothing). -/
def holdingsValue (positions : String → ℚ) (tickers : List String)
    (prices : String → Option ℚ) : ℚ :=
  (tickers.map (fun tk =>
    match prices tk with
    | some p => positions tk * p
    | none => 0)).sum

/-- One row of the portfolio DataFrame as it stands at the end of the run:
`cash` and the position columns hold the end-of-day values (fills mutate them
in place), while `holdings_value` and `total` hold the values written at
mark-to-market time, before that day's signals were processed. -/
structure PortfolioRow where
  timestamp : ℕ
  cash : ℚ
  holdings_value : ℚ
  total : ℚ
  positions : List (String × ℚ)
deriving DecidableEq, Repr

/-- The as-of price function for a day. -/
def dayPrices (inp : PBInputs) (t : ℕ) : String → Option ℚ :=
  fun tk => (inp.price_data.lookup tk).bind (fun ser => asofPrice ser t)

/-- One iteration of the master loop of `PortfolioBacktester.run`: carry the
previous state forward, mark holdings to the as-of prices, write
`holdings_value` and `total`, and — on signal days only — process every
ticker's signal. -/
def dayStep (inp : PBInputs) (handler : SimulatedExecutionHandler) (slips : ℕ → ℚ)
    (s : SimState) (t : ℕ) : Except String (PortfolioRow × SimState) :=
  let tickers := allTickers inp
  let prices := dayPrices inp t
  let hv := holdingsValue s.positions tickers prices
  let total := s.cash + hv
  if t ∈ allSignalDates inp then
    match processTickers inp handler slips t total prices s tickers with
    | .error e => .error e
    | .ok s1 =>
        .ok (⟨t, s1.cash, hv, total, tickers.map (fun tk => (tk, s1.positions tk))⟩, s1)
  else
    .ok (⟨t, s.cash, hv, total, tickers.map (fun tk => (tk, s.positions tk))⟩, s)

/-- The master loop over the full timeline, accumulating the portfolio rows. -/
def runDays (inp : PBInputs) (handler : SimulatedExecutionHandler) (slips : ℕ → ℚ)
    (s : SimState) : List ℕ → Except String (List PortfolioRow × SimState)
  | [] => .ok ([], s)
  | t :: ts =>
      match dayStep inp handler slips s t with
      | .error e => .error e
      | .ok (row, s1) =>
          match runDays inp handler slips s1 ts with
          | .error e => .error e
          | .ok (rows, sEnd) => .ok (row :: rows, sEnd)

/-- The constructor parameters of `PortfolioBacktester` and its default
collaborators. -/
structure PBConfig where
  initial_capital : ℚ
  max_trade_risk_pct : ℚ
  max_portfolio_drawdown_pct : ℚ
  slippage_pct : ℚ
  commission_per_trade : ℚ
deriving DecidableEq, Repr

/-- The result of `PortfolioBacktester.run`: the portfolio DataFrame (one row
per timeline date) and the trade log. -/
structure PBOutput where
  portfolio : List PortfolioRow
  trade_log : List FillEvent
deriving DecidableEq, Repr

/-- The execution handler built from the configuration (the default
`SimulatedExecutionHandler()` when the caller passes none). -/
def execHandler (cfg : PBConfig) : SimulatedExecutionHandler :=
  ⟨cfg.slippage_pct, cfg.commission_per_trade⟩

/-- The portfolio state at the start of a run: full cash, flat positions, a
freshly constructed risk manager, an empty trade log. -/
def initState (cfg : PBConfig) : SimState :=
  ⟨cfg.initial_capital, fun _ => 0,
   PortfolioRiskManager.init cfg.max_trade_risk_pct cfg.max_portfolio_drawdown_pct,
   [], 0⟩

/-- portfolio_backtester.py: `PortfolioBacktester.run`.  With an empty master
timeline it returns the empty result immediately; otherwise it initializes the
state and folds `dayStep` over the timeline.  `slips` supplies the sequence of
slippage draws consumed by the execution handler. -/
def PortfolioBacktester.run (cfg : PBConfig) (inp : PBInputs) (slips : ℕ → ℚ) :
    Except String PBOutput :=
  if full_timeline inp = [] then .ok ⟨[], []⟩
  else
    match runDays inp (execHandler cfg) slips (initState cfg) (full_timeline inp) with
    | .error e => .error e
    | .ok (rows, sEnd) => .ok ⟨rows, sEnd.trade_log⟩

/-- The trade log of a run (empty for a run that raised). -/
def logOf (r : Except String PBOutput) : List FillEvent :=
  match r with
  | .ok o => o.trade_log
  | .error _ => []

/-- The portfolio rows of a run (empty for a run that raised). -/
def rowsOf (r : Except String PBOutput) : List PortfolioRow :=
  match r with
  | .ok o => o.portfolio
  | .error _ => []

/-- The `cash` entry of row `i`. -/
def rowCash (r : Except String PBOutput) (i : ℕ) : Option ℚ :=
  ((rowsOf r).get? i).map PortfolioRow.cash

/-- The `holdings_value` entry of row `i`. -/
def rowHV (r : Except String PBOutput) (i : ℕ) : Option ℚ :=
  ((rowsOf r).get? i).map PortfolioRow.holdings_value

/-- The `total` entry of row `i`. -/
def rowTotal (r : Except String PBOutput) (i : ℕ) : Option ℚ :=
  ((rowsOf r).get? i).map PortfolioRow.total

/-- The `cash` entry of the last row. -/
def lastCash (r : Except String PBOutput) : Option ℚ :=
  ((rowsOf r).getLast?).map PortfolioRow.cash

/-- The deterministic "no slippage" draw sequence (a possible outcome of
`random.uniform(-s, s)` at every trade). -/
def zeroSlips : ℕ → ℚ := fun _ => 0

/-- C6 (amended): the `"Portfolio"` pseudo-asset signal takes precedence over a
ticker's own signal exactly when its value is non-zero; a zero-valued
portfolio entry defers to the ticker signal. -/
theorem portfolio_signal_precedence_nonzero
    (inp : PBInputs) (t : ℕ) (ticker : String) (s : ℤ)
    (hentry : (inp.signals_data.lookup "Portfolio").bind (fun ser => ser.lookup t) = some s)
    (hnz : s ≠ 0) :
    effectiveSignal inp t ticker = s := by
  unfold effectiveSignal signalAt
  rw [hentry]
  simp [hnz]

/-- Inputs where the `"Portfolio"` source has an entry of value 0 at timestamp
0 while ticker `"A"` signals 1 there. -/
def zeroEntryInputs : PBInputs :=
  ⟨[("A", [(0, 10)])], [("Portfolio", [(0, 0)]), ("A", [(0, 1)])], [("A", 1)]⟩

/-- C6 counterexample: the `"Portfolio"` source has an entry at timestamp 0
(of value 0), yet the effective signal for `"A"` is the asset's own signal 1 —
a mere entry does not take precedence; only a non-zero value does. -/
theorem portfolio_zero_entry_no_precedence :
    (zeroEntryInputs.signals_data.lookup "Portfolio").bind (fun ser => ser.lookup 0) =
      some 0 ∧
    effectiveSignal zeroEntryInputs 0 "A" = 1 ∧ (1 : ℤ) ≠ 0 := by decide

/-- Inputs where the `"Portfolio"` source has a non-zero entry at timestamp 0. -/
def nonzeroEntryInputs : PBInputs :=
  ⟨[("A", [(0, 10)])], [("Portfolio", [(0, 2)]), ("A", [(0, -1)])], [("A", 1)]⟩

/-- Witness: a portfolio entry of 2 overrides ticker `"A"`'s signal −1. -/
theorem portfolio_signal_precedence_nonzero_witness :
    effectiveSignal nonzeroEntryInputs 0 "A" = 2 :=
  portfolio_signal_precedence_nonzero nonzeroEntryInputs 0 "A" 2 (by decide) (by decide)

/-- C9 (amended): with an empty master timeline (no price dates and no signal
dates) `PortfolioBacktester.run` returns the empty portfolio and empty trade
log immediately — before the simulation loop — rather than raising an error. -/
theorem empty_panel_returns_empty (cfg : PBConfig) (inp : PBInputs) (slips : ℕ → ℚ)
    (h : full_timeline inp = []) :
    PortfolioBacktester.run cfg inp slips = .ok ⟨[], []⟩ := by
  unfold PortfolioBacktester.run
  rw [if_pos h]

/-- Witness: the fully empty input has an empty timeline and yields the empty
result. -/
theorem empty_panel_returns_empty_witness :
    PortfolioBacktester.run ⟨100000, 1/50, 1/5, 1/2000, 1⟩ ⟨[], [], []⟩ zeroSlips =
      .ok ⟨[], []⟩ :=
  empty_panel_returns_empty ⟨100000, 1/50, 1/5, 1/2000, 1⟩ ⟨[], [], []⟩ zeroSlips rfl

/-- C9 counterexample: on an empty price panel (a known ticker with no price
rows and no signal rows) the run completes normally with an empty result — it
is `Except.ok`, not the descriptive error the claim requires. -/
theorem empty_panel_no_error :
    PortfolioBacktester.run ⟨100000, 1/50, 1/5, 1/2000, 1⟩
      ⟨[("A", [])], [("A", [])], [("A", 1)]⟩ zeroSlips = .ok ⟨[], []⟩ := rfl

lemma dayStep_spec (inp : PBInputs) (handler : SimulatedExecutionHandler)
    (slips : ℕ → ℚ) (s : SimState) (t : ℕ) (row : PortfolioRow) (s1 : SimState)
    (h : dayStep inp handler slips s t = .ok (row, s1)) :
    row.timestamp = t ∧ row.cash = s1.cash ∧
    row.positions = (allTickers inp).map (fun tk => (tk, s1.positions tk)) ∧
    row.holdings_value = holdingsValue s.positions (allTickers inp) (dayPrices inp t) ∧
    row.total = s.cash + holdingsValue s.positions (allTickers inp) (dayPrices inp t) := by
  unfold dayStep at h
  dsimp only at h
  split at h
  · split at h
    · exact Except.noConfusion h
    · rw [Except.ok.injEq, Prod.mk.injEq] at h
      obtain ⟨hrow, hs1⟩ := h
      subst hs1
      rw [← hrow]
      exact ⟨rfl, rfl, rfl, rfl, rfl⟩
  · rw [Except.ok.injEq, Prod.mk.injEq] at h
    obtain ⟨hrow, hs1⟩ := h
    subst hs1
    rw [← hrow]
    exact ⟨rfl, rfl, rfl, rfl, rfl⟩

lemma lookup_positions_map (tickers : List String) (f : String → ℚ) (tk : String)
    (htk : tk ∈ tickers) :
    (((tickers.map (fun x => (x, f x))).lookup tk).getD 0) = f tk := by
  induction tickers with
  | nil => cases htk
  | cons a rest ih =>
    rw [List.map_cons]
    by_cases hak : tk = a
    · subst hak
      simp [List.lookup]
    · rcases List.mem_cons.mp htk with h1 | h2
      · exact absurd h1 hak
      · have hba : (tk == a) = false := beq_eq_false_iff_ne.mpr hak
        simp only [List.lookup, hba]
        exact ih h2

lemma holdingsValue_congr (f g : String → ℚ) (tickers : List String)
    (prices : String → Option ℚ) (h : ∀ tk ∈ tickers, f tk = g tk) :
    holdingsValue f tickers prices = holdingsValue g tickers prices := by
  unfold holdingsValue
  congr 1
  induction tickers with
  | nil => rfl
  | cons a rest ih =>
    rw [List.map_cons, List.map_cons,
      h a (List.mem_cons_self a rest),
      ih (fun tk htk => h tk (List.mem_cons_of_mem a htk))]

lemma holdingsValue_zero (tickers : List String) (prices : String → Option ℚ) :
    holdingsValue (fun _ => 0) tickers prices = 0 := by
  unfold holdingsValue
  apply List.sum_eq_zero
  intro x hx
  obtain ⟨tk, _, rfl⟩ := List.mem_map.mp hx
  rcases hp : prices tk with _ | p <;> simp [hp]

lemma runDays_chain (inp : PBInputs) (handler : SimulatedExecutionHandler)
    (slips : ℕ → ℚ) :
    ∀ (ts : List ℕ) (s : SimState) (rows : List PortfolioRow) (sEnd : SimState),
      runDays inp handler slips s ts = .ok (rows, sEnd) →
      (∀ row0, rows.get? 0 = some row0 →
        row0.holdings_value =
          holdingsValue s.positions (allTickers inp) (dayPrices inp row0.timestamp) ∧
        row0.total = s.cash + row0.holdings_value) ∧
      (∀ i row1 row2, rows.get? i = some row1 → rows.get? (i + 1) = some row2 →
        row2.holdings_value =
          holdingsValue (fun tk => ((row1.positions.lookup tk).getD 0)) (allTickers inp)
            (dayPrices inp row2.timestamp) ∧
        row2.total = row1.cash + row2.holdings_value) := by
  intro ts
  induction ts with
  | nil =>
    intro s rows sEnd h
    rw [runDays, Except.ok.injEq, Prod.mk.injEq] at h
    obtain ⟨hrows, _⟩ := h
    subst hrows
    constructor
    · intro row0 h0; exact absurd h0 (by simp)
    · intro i row1 row2 h1 _; exact absurd h1 (by simp)
  | cons t ts ih =>
    intro s rows sEnd h
    rw [runDays] at h
    rcases hday : dayStep inp handler slips s t with e | ⟨row, s1⟩
    · rw [hday] at h; exact Except.noConfusion h
    · rw [hday] at h
      dsimp only at h
      rcases hrest : runDays inp handler slips s1 ts with e | ⟨rows', sE⟩
      · rw [hrest] at h; exact Except.noConfusion h
      · rw [hrest] at h
        dsimp only at h
        rw [Except.ok.injEq, Prod.mk.injEq] at h
        obtain ⟨hrows, hsend⟩ := h
        subst hrows
        obtain ⟨hts, hcash, hpos, hhv, htot⟩ :=
          dayStep_spec inp handler slips s t row s1 hday
        obtain ⟨ihHead, ihCons⟩ := ih s1 rows' sE hrest
        constructor
        · intro row0 h0
          rw [List.get?_cons_zero, Option.some.injEq] at h0
          subst h0
          refine ⟨?_, ?_⟩
          · rw [hts, hhv]
          · rw [htot, hhv]
        · intro i row1 row2 h1 h2
          cases i with
          | zero =>
            rw [List.get?_cons_zero, Option.some.injEq] at h1
            subst h1
            rw [List.get?_cons_succ] at h2
            obtain ⟨hh1, hh2⟩ := ihHead row2 h2
            have hcongr : holdingsValue s1.positions (allTickers inp)
                (dayPrices inp row2.timestamp) =
                holdingsValue (fun tk => (((row.positions).lookup tk).getD 0))
                  (allTickers inp) (dayPrices inp row2.timestamp) := by
              apply holdingsValue_congr
              intro tk htk
              rw [hpos]
              exact (lookup_positions_map (allTickers inp) s1.positions tk htk).symm
            exact ⟨by rw [hh1, hcongr], by rw [hh2, hcash]⟩
          | succ n =>
            rw [List.get?_cons_succ] at h1 h2
            exact ihCons n row1 row2 h1 h2

lemma rowsOf_run (cfg : PBConfig) (inp : PBInputs) (slips : ℕ → ℚ) :
    rowsOf (PortfolioBacktester.run cfg inp slips) = [] ∨
    ∃ sEnd, runDays inp (execHandler cfg) slips (initState cfg) (full_timeline inp) =
      .ok (rowsOf (PortfolioBacktester.run cfg inp slips), sEnd) := by
  unfold PortfolioBacktester.run
  split
  · left; rfl
  · rcases h : runDays inp (execHandler cfg) slips (initState cfg) (full_timeline inp)
      with e | ⟨rows, sEnd⟩
    · left; rfl
    · right; exact ⟨sEnd, rfl⟩

/-- C8 (amended): in the final portfolio table, row 0 has `holdings_value = 0`
and `total = initial_capital`, and every later row's `holdings_value` equals
the *previous* row's positions marked at the as-of prices of its own date,
with `total` equal to the *previous* row's cash plus that holdings value:
the mark-to-market entries are written before the day's fills, so on trade
days they do not reflect the row's own (post-fill) positions and cash. -/
theorem mark_to_market_rows (cfg : PBConfig) (inp : PBInputs) (slips : ℕ → ℚ) :
    (∀ row0, (rowsOf (PortfolioBacktester.run cfg inp slips)).get? 0 = some row0 →
      row0.holdings_value = 0 ∧ row0.total = cfg.initial_capital) ∧
    (∀ i row1 row2,
      (rowsOf (PortfolioBacktester.run cfg inp slips)).get? i = some row1 →
      (rowsOf (PortfolioBacktester.run cfg inp slips)).get? (i + 1) = some row2 →
      row2.holdings_value =
        holdingsValue (fun tk => ((row1.positions.lookup tk).getD 0)) (allTickers inp)
          (dayPrices inp row2.timestamp) ∧
      row2.total = row1.cash + row2.holdings_value) := by
  rcases rowsOf_run cfg inp slips with hempty | ⟨sEnd, hrun⟩
  · rw [hempty]
    constructor
    · intro row0 h0; exact absurd h0 (by simp)
    · intro i row1 row2 h1 _; exact absurd h1 (by simp)
  · obtain ⟨chainHead, chainCons⟩ :=
      runDays_chain inp (execHandler cfg) slips (full_timeline inp) (initState cfg)
        (rowsOf (PortfolioBacktester.run cfg inp slips)) sEnd hrun
    constructor
    · intro row0 h0
      obtain ⟨hh1, hh2⟩ := chainHead row0 h0
      have hz : holdingsValue (initState cfg).positions (allTickers inp)
          (dayPrices inp row0.timestamp) = 0 := holdingsValue_zero _ _
      refine ⟨by rw [hh1, hz], ?_⟩
      rw [hh2, hh1, hz, add_zero]
      rfl
    · exact chainCons

/-- The default configuration: `initial_capital=100000.0`,
`max_trade_risk_pct=0.02`, `max_portfolio_drawdown_pct=0.20`,
`slippage_pct=0.0005`, `commission_per_trade=1.0`. -/
def cfgDefault : PBConfig := ⟨100000, 1/50, 1/5, 1/2000, 1⟩

/-- One ticker at constant price 1 for two days, with a directional BUY signal
on day 0 and full target weight. -/
def tradeDayInputs : PBInputs :=
  ⟨[("A", [(0, 1), (1, 1)])], [("A", [(0, 1)])], [("A", 1)]⟩

/-- C8 counterexample: on the trade day (timestamp 0) of a concrete run the
stored row is `cash = 97999`, `holdings_value = 0`, `total = 100000`,
position 2000 — so the `holdings_value` entry is **not** that day's position
times the day's price (2000 × 1), and the `total` entry is **not**
`cash + holdings_value` (100000 ≠ 97999 + 0): the entries were marked before
the BUY fill mutated cash and the position in place. -/
theorem stale_total_on_trade_day :
    (rowsOf (PortfolioBacktester.run cfgDefault tradeDayInputs zeroSlips)).get? 0 =
      some ⟨0, 97999, 0, 100000, [("A", 2000)]⟩ ∧
    ((100000 : ℚ) ≠ 97999 + 0) ∧ ((0 : ℚ) ≠ 2000 * 1) := by decide

/-- Witness for the amended mark-to-market theorem on the concrete two-day
run: row 1's `holdings_value` marks row 0's position at day 1's as-of price
and its `total` is row 0's cash plus that value. -/
theorem mark_to_market_rows_witness :
    (2000 : ℚ) =
      holdingsValue (fun tk => ((([("A", (2000 : ℚ))]).lookup tk).getD 0))
        (allTickers tradeDayInputs) (dayPrices tradeDayInputs 1) ∧
    (99999 : ℚ) = 97999 + 2000 := by
  have h := (mark_to_market_rows cfgDefault tradeDayInputs zeroSlips).2 0
    ⟨0, 97999, 0, 100000, [("A", 2000)]⟩ ⟨1, 97999, 2000, 99999, [("A", 2000)]⟩
    (by decide) (by decide)
  exact ⟨h.1, h.2⟩

lemma ffillSignals_all_zero (signals : List ℤ) (h : ∀ s ∈ signals, s = 0) :
    ffillSignals 0 signals = List.replicate signals.length 0 := by
  induction signals with
  | nil => rfl
  | cons a l ih =>
    have ha : a = 0 := h a (List.mem_cons_self a l)
    subst ha
    rw [ffillSignals, if_pos rfl, List.length_cons, List.replicate_succ]
    exact congrArg _ (ih (fun s hs => h s (List.mem_cons_of_mem _ hs)))

lemma pctChangeAux_length (prev : ℚ) (l : List ℚ) :
    (pctChangeAux prev l).length = l.length := by
  induction l generalizing prev with
  | nil => rfl
  | cons c rest ih => rw [pctChangeAux, List.length_cons, List.length_cons, ih]

lemma pctChangeAux_ne_none (prev : ℚ) (l : List ℚ) (hp : prev ≠ 0)
    (hl : ∀ c ∈ l, c ≠ 0) :
    ∀ x ∈ pctChangeAux prev l, x ≠ none := by
  induction l generalizing prev with
  | nil => intro x hx; cases hx
  | cons c rest ih =>
    intro x hx
    rw [pctChangeAux] at hx
    rcases List.mem_cons.mp hx with h1 | h2
    · subst h1; rw [if_neg hp]; exact Option.some_ne_none _
    · exact ih c (hl c (List.mem_cons_self c rest))
        (fun d hd => hl d (List.mem_cons_of_mem _ hd)) x h2

lemma zipWith_optMul_zero (l : List (Option ℚ)) (h : ∀ x ∈ l, x ≠ none) :
    List.zipWith optMul (List.replicate l.length (some 0)) l =
      List.replicate l.length (some 0) := by
  induction l with
  | nil => rfl
  | cons a rest ih =>
    obtain ⟨y, hy⟩ := Option.ne_none_iff_exists.mp (h a (List.mem_cons_self a rest))
    rw [List.length_cons, List.replicate_succ, List.zipWith_cons_cons, ← hy]
    rw [show optMul (some 0) (some y) = some 0 by simp [optMul]]
    exact congrArg _ (ih (fun x hx => h x (List.mem_cons_of_mem _ hx)))

lemma cumprodAux_ones (k : ℕ) :
    cumprodAux 1 (List.replicate k (some 1)) = List.replicate k (some 1) := by
  induction k with
  | zero => rfl
  | succ n ih =>
    rw [List.replicate_succ, cumprodAux, mul_one, ih]

lemma run_backtest_all_zero (closes : List ℚ) (signals : List ℤ) (cap : ℚ)
    (hlen : signals.length = closes.length)
    (hsig : ∀ s ∈ signals, s = 0)
    (hcl : ∀ c ∈ closes, c ≠ 0)
    (hne : closes ≠ []) :
    Backtester.run_backtest closes signals cap =
      none :: List.replicate (closes.length - 1) (some cap) := by
  obtain ⟨c, cs, rfl⟩ := List.exists_cons_of_ne_nil hne
  unfold Backtester.run_backtest
  dsimp only
  rw [ffillSignals_all_zero signals hsig, hlen]
  have hmap : (List.replicate (c :: cs).length (0 : ℤ)).map (fun z : ℤ => (z : ℚ)) =
      List.replicate (c :: cs).length (0 : ℚ) := by
    rw [List.map_replicate]; norm_num
  rw [hmap]
  have hshift : shift1 (List.replicate (c :: cs).length (0 : ℚ)) =
      none :: List.replicate cs.length (some (0 : ℚ)) := by
    unfold shift1
    rw [List.dropLast_replicate, List.map_replicate, List.length_cons]
    rfl
  rw [hshift]
  rw [show pctChange (c :: cs) = none :: pctChangeAux c cs from rfl]
  rw [List.zipWith_cons_cons]
  rw [show optMul none none = none from rfl]
  have hc0 : c ≠ 0 := hcl c (List.mem_cons_self c cs)
  have hzip : List.zipWith optMul (List.replicate cs.length (some 0)) (pctChangeAux c cs) =
      List.replicate cs.length (some 0) := by
    have := zipWith_optMul_zero (pctChangeAux c cs)
      (pctChangeAux_ne_none c cs hc0 (fun d hd => hcl d (List.mem_cons_of_mem _ hd)))
    rw [pctChangeAux_length] at this
    exact this
  rw [hzip]
  rw [List.map_cons, List.map_replicate]
  rw [show Option.map (fun r => 1 + r) (some (0:ℚ)) = some 1 by simp]
  rw [show Option.map (fun r => (1:ℚ) + r) none = none from rfl]
  rw [cumprodAux, cumprodAux_ones]
  rw [List.map_cons, List.map_replicate]
  rw [show Option.map (fun v => cap * v) (some (1:ℚ)) = some cap by simp]
  rw [show Option.map (fun v => cap * v) (none : Option ℚ) = none from rfl]
  rfl

lemma processTicker_cases (inp : PBInputs) (handler : SimulatedExecutionHandler)
    (slips : ℕ → ℚ) (t : ℕ) (dayTotal : ℚ) (prices : String → Option ℚ)
    (s : SimState) (ticker : String) (s1 : SimState)
    (h : processTicker inp handler slips t dayTotal prices s ticker = .ok s1) :
    (s1.cash = s.cash ∧ s1.positions = s.positions ∧ s1.trade_log = s.trade_log) ∨
    s.trade_log.length < s1.trade_log.length := by
  unfold processTicker at h
  dsimp only at h
  split at h
  · rw [Except.ok.injEq] at h; subst h; left; exact ⟨rfl, rfl, rfl⟩
  · split at h
    · rw [Except.ok.injEq] at h; subst h; left; exact ⟨rfl, rfl, rfl⟩
    · split at h
      · rw [Except.ok.injEq] at h; subst h; left; exact ⟨rfl, rfl, rfl⟩
      · split at h
        · rw [Except.ok.injEq] at h; subst h; left; exact ⟨rfl, rfl, rfl⟩
        · split at h
          · exact Except.noConfusion h
          · rw [Except.ok.injEq] at h; subst h; left; exact ⟨rfl, rfl, rfl⟩
          · split at h
            · rw [Except.ok.injEq] at h; subst h; right; simp
            · split at h
              · rw [Except.ok.injEq] at h; subst h; right; simp
              · rw [Except.ok.injEq] at h; subst h; right; simp

lemma processTickers_cases (inp : PBInputs) (handler : SimulatedExecutionHandler)
    (slips : ℕ → ℚ) (t : ℕ) (dayTotal : ℚ) (prices : String → Option ℚ) :
    ∀ (tl : List String) (s s1 : SimState),
      processTickers inp handler slips t dayTotal prices s tl = .ok s1 →
      (s1.cash = s.cash ∧ s1.positions = s.positions ∧ s1.trade_log = s.trade_log) ∨
      s.trade_log.length < s1.trade_log.length := by
  intro tl
  induction tl with
  | nil =>
    intro s s1 h
    rw [processTickers, Except.ok.injEq] at h
    subst h; left; exact ⟨rfl, rfl, rfl⟩
  | cons tk rest ih =>
    intro s s1 h
    rw [processTickers] at h
    rcases hstep : processTicker inp handler slips t dayTotal prices s tk with e | s2
    · rw [hstep] at h; exact Except.noConfusion h
    · rw [hstep] at h
      dsimp only at h
      rcases processTicker_cases inp handler slips t dayTotal prices s tk s2 hstep
        with ⟨hc, hp, hl⟩ | hlt
      · rcases ih s2 s1 h with ⟨hc2, hp2, hl2⟩ | hlt2
        · left; exact ⟨hc2.trans hc, hp2.trans hp, hl2.trans hl⟩
        · right; rw [hl] at hlt2; exact hlt2
      · rcases ih s2 s1 h with ⟨hc2, hp2, hl2⟩ | hlt2
        · right; rw [← hl2] at hlt; exact hlt
        · right; exact hlt.trans hlt2

lemma dayStep_cases (inp : PBInputs) (handler : SimulatedExecutionHandler)
    (slips : ℕ → ℚ) (s : SimState) (t : ℕ) (row : PortfolioRow) (s1 : SimState)
    (h : dayStep inp handler slips s t = .ok (row, s1)) :
    (s1.cash = s.cash ∧ s1.positions = s.positions ∧ s1.trade_log = s.trade_log) ∨
    s.trade_log.length < s1.trade_log.length := by
  unfold dayStep at h
  dsimp only at h
  split at h
  · rcases hpt : processTickers inp handler slips t
        (s.cash + holdingsValue s.positions (allTickers inp) (dayPrices inp t))
        (dayPrices inp t) s (allTickers inp) with e | s2
    · rw [hpt] at h; exact Except.noConfusion h
    · rw [hpt] at h
      dsimp only at h
      rw [Except.ok.injEq, Prod.mk.injEq] at h
      obtain ⟨_, hs1⟩ := h
      subst hs1
      exact processTickers_cases inp handler slips t _ _ _ s s2 hpt
  · rw [Except.ok.injEq, Prod.mk.injEq] at h
    obtain ⟨_, hs1⟩ := h
    subst hs1
    left; exact ⟨rfl, rfl, rfl⟩

lemma runDays_log_le (inp : PBInputs) (handler : SimulatedExecutionHandler)
    (slips : ℕ → ℚ) :
    ∀ (ts : List ℕ) (s : SimState) (rows : List PortfolioRow) (sEnd : SimState),
      runDays inp handler slips s ts = .ok (rows, sEnd) →
      s.trade_log.length ≤ sEnd.trade_log.length := by
  intro ts
  induction ts with
  | nil =>
    intro s rows sEnd h
    rw [runDays, Except.ok.injEq, Prod.mk.injEq] at h
    obtain ⟨_, hs⟩ := h
    subst hs; exact le_refl _
  | cons t ts ih =>
    intro s rows sEnd h
    rw [runDays] at h
    rcases hday : dayStep inp handler slips s t with e | ⟨row, s1⟩
    · rw [hday] at h; exact Except.noConfusion h
    · rw [hday] at h
      dsimp only at h
      rcases hrest : runDays inp handler slips s1 ts with e | ⟨rows', sE⟩
      · rw [hrest] at h; exact Except.noConfusion h
      · rw [hrest] at h
        dsimp only at h
        rw [Except.ok.injEq, Prod.mk.injEq] at h
        obtain ⟨_, hsend⟩ := h
        subst hsend
        have h1 : s.trade_log.length ≤ s1.trade_log.length := by
          rcases dayStep_cases inp handler slips s t row s1 hday with ⟨_, _, hl⟩ | hlt
          · rw [hl]
          · exact le_of_lt hlt
        exact h1.trans (ih s1 rows' sE hrest)

lemma runDays_no_trades (inp : PBInputs) (handler : SimulatedExecutionHandler)
    (slips : ℕ → ℚ) (cap : ℚ) :
    ∀ (ts : List ℕ) (s : SimState) (rows : List PortfolioRow) (sEnd : SimState),
      runDays inp handler slips s ts = .ok (rows, sEnd) →
      sEnd.trade_log.length ≤ s.trade_log.length →
      s.cash = cap → s.positions = (fun _ => 0) →
      (∀ row ∈ rows, row.total = cap) := by
  intro ts
  induction ts with
  | nil =>
    intro s rows sEnd h _ _ _
    rw [runDays, Except.ok.injEq, Prod.mk.injEq] at h
    obtain ⟨hr, _⟩ := h
    subst hr
    intro row hrow; cases hrow
  | cons t ts ih =>
    intro s rows sEnd h hle hc hp
    rw [runDays] at h
    rcases hday : dayStep inp handler slips s t with e | ⟨row, s1⟩
    · rw [hday] at h; exact Except.noConfusion h
    · rw [hday] at h
      dsimp only at h
      rcases hrest : runDays inp handler slips s1 ts with e | ⟨rows', sE⟩
      · rw [hrest] at h; exact Except.noConfusion h
      · rw [hrest] at h
        dsimp only at h
        rw [Except.ok.injEq, Prod.mk.injEq] at h
        obtain ⟨hr, hsend⟩ := h
        subst hr
        subst hsend
        have hs1le : s1.trade_log.length ≤ s.trade_log.length :=
          (runDays_log_le inp handler slips ts s1 rows' sE hrest).trans hle
        have hkeep : s1.cash = s.cash ∧ s1.positions = s.positions ∧
            s1.trade_log = s.trade_log := by
          rcases dayStep_cases inp handler slips s t row s1 hday with hk | hlt
          · exact hk
          · exact absurd hs1le (not_le.mpr hlt)
        obtain ⟨hts, _, _, _, htot⟩ := dayStep_spec inp handler slips s t row s1 hday
        intro r hr
        rcases List.mem_cons.mp hr with h1 | h2
        · subst h1
          rw [htot, hc, hp, holdingsValue_zero, add_zero]
        · have hle2 : sE.trade_log.length ≤ s1.trade_log.length := by
            rw [hkeep.2.2]; exact hle
          exact ih s1 rows' sE hrest hle2 (hkeep.1.trans hc)
            (hkeep.2.1.trans hp) r h2

lemma run_destruct (cfg : PBConfig) (inp : PBInputs) (slips : ℕ → ℚ) :
    (rowsOf (PortfolioBacktester.run cfg inp slips) = [] ∧
     logOf (PortfolioBacktester.run cfg inp slips) = []) ∨
    ∃ sEnd, runDays inp (execHandler cfg) slips (initState cfg) (full_timeline inp) =
      .ok (rowsOf (PortfolioBacktester.run cfg inp slips), sEnd) ∧
      logOf (PortfolioBacktester.run cfg inp slips) = sEnd.trade_log := by
  unfold PortfolioBacktester.run
  split
  · left; exact ⟨rfl, rfl⟩
  · rcases h : runDays inp (execHandler cfg) slips (initState cfg) (full_timeline inp)
      with e | ⟨rows, sEnd⟩
    · left; exact ⟨rfl, rfl⟩
    · right; exact ⟨sEnd, rfl, rfl⟩

/-- C4 (amended): with zero executed trades, total equity stays at the initial
capital — with one exception that falsifies the claim as stated.  In the
portfolio backtester, an empty trade log forces the `total` column to equal
`initial_capital` at every bar.  In the single-asset `Backtester.run_backtest`
(with all-zero signals and non-zero closes), every bar *after the first*
equals the initial capital, but the very first bar is NaN, because
`pct_change`/`shift(1)` put NaN at bar 0 and `1 + NaN` stays NaN through
`cumprod(skipna=True)`. -/
theorem zero_trades_total_equity :
    (∀ (cfg : PBConfig) (inp : PBInputs) (slips : ℕ → ℚ),
      logOf (PortfolioBacktester.run cfg inp slips) = [] →
      ∀ row ∈ rowsOf (PortfolioBacktester.run cfg inp slips),
        row.total = cfg.initial_capital) ∧
    (∀ (closes : List ℚ) (signals : List ℤ) (cap : ℚ),
      signals.length = closes.length → (∀ s ∈ signals, s = 0) →
      (∀ c ∈ closes, c ≠ 0) → closes ≠ [] →
      Backtester.run_backtest closes signals cap =
        none :: List.replicate (closes.length - 1) (some cap)) := by
  constructor
  · intro cfg inp slips hlog row hrow
    rcases run_destruct cfg inp slips with ⟨hre, _⟩ | ⟨sEnd, hrun, hlogeq⟩
    · rw [hre] at hrow; cases hrow
    · have hend : sEnd.trade_log = [] := hlogeq.symm.trans hlog
      have hle : sEnd.trade_log.length ≤ (initState cfg).trade_log.length := by
        rw [hend]; exact Nat.zero_le _
      exact runDays_no_trades inp (execHandler cfg) slips cfg.initial_capital
        (full_timeline inp) (initState cfg) _ sEnd hrun hle rfl rfl row hrow
  · intro closes signals cap hlen hsig hcl hne
    exact run_backtest_all_zero closes signals cap hlen hsig hcl hne

/-- C4 counterexample: a three-bar run with all-zero signals (zero trades).
The claim requires every bar of `Portfolio_Value`, including the first, to
equal the initial capital 100000; the first bar is NaN instead. -/
theorem first_bar_portfolio_value_nan :
    Backtester.run_backtest [100, 101, 102] [0, 0, 0] 100000 =
      [none, some 100000, some 100000] ∧ (none : Option ℚ) ≠ some 100000 := by
  decide

/-- A price panel with no signals at all: a zero-trade portfolio run. -/
def quietInputs : PBInputs := ⟨[("A", [(0, 5), (1, 6)])], [], [("A", 1)]⟩

/-- Witness for the amended zero-trades theorem: a concrete all-zero-signal
single-asset run and the first row of a concrete no-signal portfolio run. -/
theorem zero_trades_total_equity_witness :
    Backtester.run_backtest [100, 101] [0, 0] 5000 =
      none :: List.replicate 1 (some 5000) ∧
    (⟨0, 100000, 0, 100000, [("A", 0)]⟩ : PortfolioRow).total = (100000 : ℚ) := by
  constructor
  · exact zero_trades_total_equity.2 [100, 101] [0, 0] 5000 rfl (by decide) (by decide)
      (by decide)
  · exact zero_trades_total_equity.1 cfgDefault quietInputs zeroSlips (by decide)
      ⟨0, 100000, 0, 100000, [("A", 0)]⟩ (by decide)

/-- The sum of `total_cost` over the BUY fills of a trade log (the amounts
subtracted from cash). -/
def buyCosts (log : List FillEvent) : ℚ :=
  ((log.filter (fun f => f.direction == "BUY")).map FillEvent.total_cost).sum

/-- The sum of `total_cost` over the SELL fills of a trade log (the amounts
added to cash). -/
def sellProceeds (log : List FillEvent) : ℚ :=
  ((log.filter (fun f => f.direction == "SELL")).map FillEvent.total_cost).sum

lemma buyCosts_append (log : List FillEvent) (f : FillEvent) :
    buyCosts (log ++ [f]) =
      buyCosts log + (if f.direction = "BUY" then f.total_cost else 0) := by
  unfold buyCosts
  rw [List.filter_append, List.map_append, List.sum_append]
  by_cases hd : f.direction = "BUY"
  · simp [hd]
  · simp [hd]

lemma sellProceeds_append (log : List FillEvent) (f : FillEvent) :
    sellProceeds (log ++ [f]) =
      sellProceeds log + (if f.direction = "SELL" then f.total_cost else 0) := by
  unfold sellProceeds
  rw [List.filter_append, List.map_append, List.sum_append]
  by_cases hd : f.direction = "SELL"
  · simp [hd]
  · simp [hd]

lemma generateOrder_direction (t : ℕ) (tk : String) (sig : ℤ)
    (pos total price w : ℚ) (o : OrderEvent)
    (h : generateOrder t tk sig pos total price w = some o) :
    o.direction = "BUY" ∨ o.direction = "SELL" := by
  unfold generateOrder at h
  dsimp only at h
  split at h
  · split at h
    · rw [Option.some.injEq] at h; subst h; left; rfl
    · exact Option.noConfusion h
  · split at h
    · rw [Option.some.injEq] at h; subst h; right; rfl
    · split at h
      · split at h
        · rw [Option.some.injEq] at h; subst h; left; rfl
        · split at h
          · rw [Option.some.injEq] at h; subst h; right; rfl
          · exact Option.noConfusion h
      · exact Option.noConfusion h

lemma assessOrderResult_direction (m : RiskManager) (o : OrderEvent) (st : Snapshot)
    (o' : OrderEvent) (h : assessOrderResult m o st = .ok (some o')) :
    o'.direction = o.direction := by
  unfold assessOrderResult at h
  dsimp only at h
  split at h
  · exact Except.noConfusion h
  · split at h
    · rw [Except.ok.injEq] at h; exact Option.noConfusion h
    · split at h
      · split at h
        · exact Except.noConfusion h
        · split at h
          · split at h
            · exact Except.noConfusion h
            · split at h
              · rw [Except.ok.injEq] at h; exact Option.noConfusion h
              · rw [Except.ok.injEq, Option.some.injEq] at h; subst h; rfl
          · rw [Except.ok.injEq, Option.some.injEq] at h; subst h; rfl
      · rw [Except.ok.injEq, Option.some.injEq] at h; subst h; rfl

lemma processTicker_cash_acct (inp : PBInputs) (handler : SimulatedExecutionHandler)
    (slips : ℕ → ℚ) (t : ℕ) (dayTotal : ℚ) (prices : String → Option ℚ)
    (s : SimState) (ticker : String) (s1 : SimState) (cap : ℚ)
    (h : processTicker inp handler slips t dayTotal prices s ticker = .ok s1)
    (hinv : s.cash = cap - buyCosts s.trade_log + sellProceeds s.trade_log) :
    s1.cash = cap - buyCosts s1.trade_log + sellProceeds s1.trade_log := by
  unfold processTicker at h
  dsimp only at h
  split at h
  · rw [Except.ok.injEq] at h; subst h; exact hinv
  · rcases hpr : prices ticker with _ | price
    · rw [hpr] at h; dsimp only at h
      rw [Except.ok.injEq] at h; subst h; exact hinv
    · rw [hpr] at h; dsimp only at h
      split at h
      · rw [Except.ok.injEq] at h; subst h; exact hinv
      · rcases hgen : generateOrder t ticker (effectiveSignal inp t ticker)
            (s.positions ticker) dayTotal price
            ((inp.target_weights.lookup ticker).getD 0) with _ | order
        · rw [hgen] at h; dsimp only at h
          rw [Except.ok.injEq] at h; subst h; exact hinv
        · rw [hgen] at h; dsimp only at h
          unfold assessOrder at h
          dsimp only at h
          rcases hres : assessOrderResult s.risk order
              ⟨dayTotal, fun sym => if sym = ticker then some price else none⟩
              with e | oo
          · rw [hres] at h; exact Except.noConfusion h
          · rw [hres] at h
            rcases oo with _ | approved
            · dsimp only at h
              rw [Except.ok.injEq] at h; subst h; exact hinv
            · dsimp only at h
              split at h
              · rename_i hbuy
                rw [Except.ok.injEq] at h; subst h
                dsimp only
                rw [buyCosts_append, sellProceeds_append, if_pos hbuy,
                  if_neg (fun hs => by rw [hbuy] at hs; exact absurd hs (by decide)),
                  hinv]
                ring
              · split at h
                · rename_i hnbuy hsell
                  rw [Except.ok.injEq] at h; subst h
                  dsimp only
                  rw [buyCosts_append, sellProceeds_append, if_neg hnbuy,
                    if_pos hsell, hinv]
                  ring
                · rename_i hnbuy hnsell
                  exfalso
                  have hfd : (handler.execute_order (slips s.slipCount) approved
                      price).direction = approved.direction := rfl
                  have hdir := assessOrderResult_direction s.risk order _ approved hres
                  rcases generateOrder_direction t ticker _ _ _ _ _ order hgen
                    with hb | hs
                  · exact hnbuy (by rw [hfd, hdir, hb])
                  · exact hnsell (by rw [hfd, hdir, hs])

lemma processTickers_cash_acct (inp : PBInputs) (handler : SimulatedExecutionHandler)
    (slips : ℕ → ℚ) (t : ℕ) (dayTotal : ℚ) (prices : String → Option ℚ) (cap : ℚ) :
    ∀ (tl : List String) (s s1 : SimState),
      processTickers inp handler slips t dayTotal prices s tl = .ok s1 →
      s.cash = cap - buyCosts s.trade_log + sellProceeds s.trade_log →
      s1.cash = cap - buyCosts s1.trade_log + sellProceeds s1.trade_log := by
  intro tl
  induction tl with
  | nil =>
    intro s s1 h hinv
    rw [processTickers, Except.ok.injEq] at h
    subst h; exact hinv
  | cons tk rest ih =>
    intro s s1 h hinv
    rw [processTickers] at h
    rcases hstep : processTicker inp handler slips t dayTotal prices s tk with e | s2
    · rw [hstep] at h; exact Except.noConfusion h
    · rw [hstep] at h
      dsimp only at h
      exact ih s2 s1 h
        (processTicker_cash_acct inp handler slips t dayTotal prices s tk s2 cap
          hstep hinv)

lemma dayStep_cash_acct (inp : PBInputs) (handler : SimulatedExecutionHandler)
    (slips : ℕ → ℚ) (s : SimState) (t : ℕ) (row : PortfolioRow) (s1 : SimState)
    (cap : ℚ) (h : dayStep inp handler slips s t = .ok (row, s1))
    (hinv : s.cash = cap - buyCosts s.trade_log + sellProceeds s.trade_log) :
    s1.cash = cap - buyCosts s1.trade_log + sellProceeds s1.trade_log := by
  unfold dayStep at h
  dsimp only at h
  split at h
  · rcases hpt : processTickers inp handler slips t
        (s.cash + holdingsValue s.positions (allTickers inp) (dayPrices inp t))
        (dayPrices inp t) s (allTickers inp) with e | s2
    · rw [hpt] at h; exact Except.noConfusion h
    · rw [hpt] at h
      dsimp only at h
      rw [Except.ok.injEq, Prod.mk.injEq] at h
      obtain ⟨_, hs1⟩ := h
      subst hs1
      exact processTickers_cash_acct inp handler slips t _ _ cap _ s s2 hpt hinv
  · rw [Except.ok.injEq, Prod.mk.injEq] at h
    obtain ⟨_, hs1⟩ := h
    subst hs1
    exact hinv

lemma runDays_cash_acct (inp : PBInputs) (handler : SimulatedExecutionHandler)
    (slips : ℕ → ℚ) (cap : ℚ) :
    ∀ (ts : List ℕ) (s : SimState) (rows : List PortfolioRow) (sEnd : SimState),
      runDays inp handler slips s ts = .ok (rows, sEnd) →
      s.cash = cap - buyCosts s.trade_log + sellProceeds s.trade_log →
      sEnd.cash = cap - buyCosts sEnd.trade_log + sellProceeds sEnd.trade_log := by
  intro ts
  induction ts with
  | nil =>
    intro s rows sEnd h hinv
    rw [runDays, Except.ok.injEq, Prod.mk.injEq] at h
    obtain ⟨_, hs⟩ := h
    subst hs; exact hinv
  | cons t ts ih =>
    intro s rows sEnd h hinv
    rw [runDays] at h
    rcases hday : dayStep inp handler slips s t with e | ⟨row, s1⟩
    · rw [hday] at h; exact Except.noConfusion h
    · rw [hday] at h
      dsimp only at h
      rcases hrest : runDays inp handler slips s1 ts with e | ⟨rows', sE⟩
      · rw [hrest] at h; exact Except.noConfusion h
      · rw [hrest] at h
        dsimp only at h
        rw [Except.ok.injEq, Prod.mk.injEq] at h
        obtain ⟨_, hsend⟩ := h
        subst hsend
        exact ih s1 rows' sE hrest
          (dayStep_cash_acct inp handler slips s t row s1 cap hday hinv)

lemma runDays_last_cash (inp : PBInputs) (handler : SimulatedExecutionHandler)
    (slips : ℕ → ℚ) :
    ∀ (ts : List ℕ) (s : SimState) (rows : List PortfolioRow) (sEnd : SimState),
      runDays inp handler slips s ts = .ok (rows, sEnd) → ts ≠ [] →
      (rows.getLast?).map PortfolioRow.cash = some sEnd.cash := by
  intro ts
  induction ts with
  | nil => intro s rows sEnd _ hne; exact absurd rfl hne
  | cons t ts ih =>
    intro s rows sEnd h _
    rw [runDays] at h
    rcases hday : dayStep inp handler slips s t with e | ⟨row, s1⟩
    · rw [hday] at h; exact Except.noConfusion h
    · rw [hday] at h
      dsimp only at h
      rcases hrest : runDays inp handler slips s1 ts with e | ⟨rows', sE⟩
      · rw [hrest] at h; exact Except.noConfusion h
      · rw [hrest] at h
        dsimp only at h
        rw [Except.ok.injEq, Prod.mk.injEq] at h
        obtain ⟨hr, hsend⟩ := h
        subst hr
        subst hsend
        cases ts with
        | nil =>
          rw [runDays, Except.ok.injEq, Prod.mk.injEq] at hrest
          obtain ⟨hr2, hs2⟩ := hrest
          subst hr2
          subst hs2
          obtain ⟨_, hcash, _, _, _⟩ := dayStep_spec inp handler slips s t row s1 hday
          rw [show ([row] : List PortfolioRow).getLast? = some row from rfl,
            Option.map_some', hcash]
        | cons t2 ts2 =>
          have hres := ih s1 rows' sE hrest (by simp)
          cases rows' with
          | nil => simp at hres
          | cons r2 rows'' =>
            rw [List.getLast?_cons_cons]
            exact hres

/-- C7 (amended): the shared cash pool is governed by the accounting identity
`final cash = initial_capital − (BUY fill costs) + (SELL fill proceeds)` —
nothing in the run compares a BUY's cost against available cash (the risk
manager caps notional against *total equity*), so the identity permits, and
runs exhibit, strictly negative cash. -/
theorem cash_accounting_identity (cfg : PBConfig) (inp : PBInputs) (slips : ℕ → ℚ) :
    (lastCash (PortfolioBacktester.run cfg inp slips)).getD cfg.initial_capital =
      cfg.initial_capital - buyCosts (logOf (PortfolioBacktester.run cfg inp slips))
        + sellProceeds (logOf (PortfolioBacktester.run cfg inp slips)) := by
  unfold PortfolioBacktester.run
  by_cases htl : full_timeline inp = []
  · simp only [if_pos htl]
    show (Option.map _ (List.getLast? [])).getD _ = _
    simp [buyCosts, sellProceeds, logOf]
  · simp only [if_neg htl]
    rcases h : runDays inp (execHandler cfg) slips (initState cfg) (full_timeline inp)
      with e | ⟨rows, sEnd⟩
    · show (Option.map _ (List.getLast? [])).getD _ = _
      simp [buyCosts, sellProceeds, logOf]
    · have hinv0 : (initState cfg).cash =
          cfg.initial_capital - buyCosts (initState cfg).trade_log
            + sellProceeds (initState cfg).trade_log := by
        show cfg.initial_capital = cfg.initial_capital - buyCosts [] + sellProceeds []
        norm_num [buyCosts, sellProceeds]
      have hacct := runDays_cash_acct inp (execHandler cfg) slips cfg.initial_capital
        (full_timeline inp) (initState cfg) rows sEnd h hinv0
      have hlast := runDays_last_cash inp (execHandler cfg) slips
        (full_timeline inp) (initState cfg) rows sEnd h htl
      unfold lastCash rowsOf logOf
      dsimp only
      rw [hlast, Option.getD_some]
      exact hacct

/-- A fifty-day run at constant price 1 with a rebalance signal (2) every day:
the risk manager approves a capped BUY each day (each within 2% of equity) and
the shared cash bleeds away until it crosses zero. -/
def bleedInputs : PBInputs :=
  ⟨[("A", (List.range 50).map (fun k => (k, (1 : ℚ))))],
   [("A", (List.range 50).map (fun k => (k, (2 : ℤ))))],
   [("A", 1)]⟩

/-- C7 counterexample: with the default configuration (capital 100000, 2% per
trade, 20% drawdown ceiling, $1 commission) and zero slippage draws, the
`cash` entry at timestamp 49 is −1: the portfolio table's cash goes strictly
negative, which the claim says can never happen. -/
theorem cash_goes_negative :
    rowCash (PortfolioBacktester.run cfgDefault bleedInputs zeroSlips) 49 =
      some (-1) ∧ ((-1 : ℚ) < 0) := by decide

lemma generateOrder_quantity (t : ℕ) (tk : String) (sig : ℤ)
    (pos total price w : ℚ) (o : OrderEvent)
    (hpos : ∃ n : ℤ, pos = (n : ℚ))
    (h : generateOrder t tk sig pos total price w = some o) :
    ∃ k : ℤ, o.quantity = (k : ℚ) ∧ 1 ≤ k := by
  obtain ⟨n, hn⟩ := hpos
  unfold generateOrder at h
  dsimp only at h
  split at h
  · split at h
    · rename_i hq
      rw [Option.some.injEq] at h; subst h
      exact ⟨pyInt (total * w / price), rfl, hq⟩
    · exact Option.noConfusion h
  · split at h
    · rename_i hcond
      rw [Option.some.injEq] at h; subst h
      refine ⟨n, ?_, ?_⟩
      · show (pyInt pos : ℚ) = (n : ℚ)
        rw [hn, pyInt_intCast]
      · have h0 : (0 : ℚ) < (n : ℚ) := hn ▸ hcond.2
        have h0' : (0 : ℤ) < n := by exact_mod_cast h0
        omega
    · split at h
      · split at h
        · rename_i htr
          rw [Option.some.injEq] at h; subst h
          refine ⟨pyInt (total * w / price) - n, ?_, ?_⟩
          · show (pyInt ((pyInt (total * w / price) : ℚ) - pos) : ℚ) = _
            rw [hn, show ((pyInt (total * w / price) : ℚ) - (n : ℚ)) =
              ((pyInt (total * w / price) - n : ℤ) : ℚ) by push_cast; ring,
              pyInt_intCast]
          · rw [hn] at htr
            have : (0 : ℚ) < ((pyInt (total * w / price) - n : ℤ) : ℚ) := by
              push_cast; linarith
            have h0' : (0 : ℤ) < pyInt (total * w / price) - n := by exact_mod_cast this
            omega
        · split at h
          · rename_i hnt htr
            rw [Option.some.injEq] at h; subst h
            refine ⟨n - pyInt (total * w / price), ?_, ?_⟩
            · show (pyInt |(pyInt (total * w / price) : ℚ) - pos| : ℚ) = _
              rw [hn, abs_of_neg (hn ▸ htr),
                show (-((pyInt (total * w / price) : ℚ) - (n : ℚ))) =
                  ((n - pyInt (total * w / price) : ℤ) : ℚ) by push_cast; ring,
                pyInt_intCast]
            · rw [hn] at htr
              have : ((n - pyInt (total * w / price) : ℤ) : ℚ) > 0 := by
                push_cast; linarith
              have h0' : (0 : ℤ) < n - pyInt (total * w / price) := by exact_mod_cast this
              omega
          · exact Option.noConfusion h
      · exact Option.noConfusion h

lemma assessOrderResult_quantity (m : RiskManager) (o : OrderEvent) (st : Snapshot)
    (o' : OrderEvent)
    (hr : 0 ≤ m.max_trade_risk_pct) (hdd : m.max_portfolio_drawdown_pct ≤ 1)
    (hhwm : 0 ≤ m.high_water_mark)
    (hq : ∃ k : ℤ, o.quantity = (k : ℚ) ∧ 1 ≤ k)
    (h : assessOrderResult m o st = .ok (some o')) :
    ∃ k : ℤ, o'.quantity = (k : ℚ) ∧ 1 ≤ k := by
  obtain ⟨k, hk, hk1⟩ := hq
  unfold assessOrderResult at h
  dsimp only at h
  split at h
  · exact Except.noConfusion h
  · rename_i hne0
    split at h
    · rw [Except.ok.injEq] at h; exact Option.noConfusion h
    · rename_i hgate
      split at h
      · rename_i hbuy
        rcases hpr : st.price o.symbol with _ | price
        · rw [hpr] at h; exact Except.noConfusion h
        · rw [hpr] at h
          dsimp only at h
          split at h
          · rename_i hgt
            split at h
            · exact Except.noConfusion h
            · rename_i hp0
              split at h
              · rw [Except.ok.injEq] at h; exact Option.noConfusion h
              · rename_i hnq0
                rw [Except.ok.injEq, Option.some.injEq] at h
                subst h
                have hwmpos : 0 < updateHWM m.high_water_mark st.total :=
                  lt_of_le_of_ne (le_trans hhwm (updateHWM_le _ _)) (Ne.symm hne0)
                have hEnn : 0 ≤ st.total := by
                  by_contra hneg
                  push_neg at hneg
                  apply hgate
                  refine ⟨?_, hbuy⟩
                  have h1 : (1 : ℚ) < (updateHWM m.high_water_mark st.total - st.total) /
                      updateHWM m.high_water_mark st.total := by
                    rw [lt_div_iff₀ hwmpos, one_mul]
                    linarith
                  linarith
                have hcap : 0 ≤ st.total * m.max_trade_risk_pct := mul_nonneg hEnn hr
                have hqpos : (0 : ℚ) < o.quantity := by
                  rw [hk]
                  exact_mod_cast lt_of_lt_of_le Int.zero_lt_one hk1
                have hppos : 0 < price := by
                  by_contra hneg
                  push_neg at hneg
                  have hle0 : o.quantity * price ≤ 0 := by
                    calc o.quantity * price ≤ o.quantity * 0 :=
                          mul_le_mul_of_nonneg_left hneg hqpos.le
                      _ = 0 := mul_zero _
                  linarith
                have hdiv : 0 ≤ st.total * m.max_trade_risk_pct / price :=
                  div_nonneg hcap hppos.le
                refine ⟨pyInt (st.total * m.max_trade_risk_pct / price), rfl, ?_⟩
                have h0le : 0 ≤ pyInt (st.total * m.max_trade_risk_pct / price) := by
                  rw [pyInt_eq_floor_of_nonneg hdiv]
                  exact Int.floor_nonneg.mpr hdiv
                have hne' : pyInt (st.total * m.max_trade_risk_pct / price) ≠ 0 := hnq0
                omega
          · rw [Except.ok.injEq, Option.some.injEq] at h; subst h
            exact ⟨k, hk, hk1⟩
      · rw [Except.ok.injEq, Option.some.injEq] at h; subst h
        exact ⟨k, hk, hk1⟩

/-- The whole-share invariant carried through a run: the risk parameters are
those of the configuration, the high-water mark is nonnegative, every position
is an integer number of shares, and every logged fill has a positive integer
quantity. -/
def WholeShareInv (r dd : ℚ) (s : SimState) : Prop :=
  s.risk.max_trade_risk_pct = r ∧ s.risk.max_portfolio_drawdown_pct = dd ∧
  0 ≤ s.risk.high_water_mark ∧
  (∀ tk, ∃ n : ℤ, s.positions tk = (n : ℚ)) ∧
  (∀ f ∈ s.trade_log, ∃ n : ℤ, f.quantity = (n : ℚ) ∧ 1 ≤ n)

lemma processTicker_whole (inp : PBInputs) (handler : SimulatedExecutionHandler)
    (slips : ℕ → ℚ) (t : ℕ) (dayTotal : ℚ) (prices : String → Option ℚ)
    (s : SimState) (ticker : String) (s1 : SimState) (r dd : ℚ)
    (hr : 0 ≤ r) (hdd : dd ≤ 1)
    (h : processTicker inp handler slips t dayTotal prices s ticker = .ok s1)
    (hinv : WholeShareInv r dd s) : WholeShareInv r dd s1 := by
  obtain ⟨hrp, hdp, hhwm, hposI, hlogI⟩ := hinv
  unfold processTicker at h
  dsimp only at h
  split at h
  · rw [Except.ok.injEq] at h; subst h; exact ⟨hrp, hdp, hhwm, hposI, hlogI⟩
  · rcases hpr : prices ticker with _ | price
    · rw [hpr] at h; dsimp only at h
      rw [Except.ok.injEq] at h; subst h; exact ⟨hrp, hdp, hhwm, hposI, hlogI⟩
    · rw [hpr] at h; dsimp only at h
      split at h
      · rw [Except.ok.injEq] at h; subst h; exact ⟨hrp, hdp, hhwm, hposI, hlogI⟩
      · rcases hgen : generateOrder t ticker (effectiveSignal inp t ticker)
            (s.positions ticker) dayTotal price
            ((inp.target_weights.lookup ticker).getD 0) with _ | order
        · rw [hgen] at h; dsimp only at h
          rw [Except.ok.injEq] at h; subst h; exact ⟨hrp, hdp, hhwm, hposI, hlogI⟩
        · rw [hgen] at h; dsimp only at h
          unfold assessOrder at h
          dsimp only at h
          have hhwm1 : 0 ≤ updateHWM s.risk.high_water_mark dayTotal :=
            le_trans hhwm (updateHWM_le _ _)
          rcases hres : assessOrderResult s.risk order
              ⟨dayTotal, fun sym => if sym = ticker then some price else none⟩
              with e | oo
          · rw [hres] at h; exact Except.noConfusion h
          · rw [hres] at h
            rcases oo with _ | approved
            · dsimp only at h
              rw [Except.ok.injEq] at h; subst h
              exact ⟨hrp, hdp, hhwm1, hposI, hlogI⟩
            · dsimp only at h
              have hgood : ∃ k : ℤ, approved.quantity = (k : ℚ) ∧ 1 ≤ k :=
                assessOrderResult_quantity s.risk order _ approved
                  (hrp ▸ hr) (hdp ▸ hdd) hhwm
                  (generateOrder_quantity t ticker _ _ dayTotal price _ order
                    (hposI ticker) hgen)
                  hres
              obtain ⟨k, hkq, hk1⟩ := hgood
              have hlog1 : ∀ f ∈ s.trade_log ++
                  [handler.execute_order (slips s.slipCount) approved price],
                  ∃ n : ℤ, f.quantity = (n : ℚ) ∧ 1 ≤ n := by
                intro f hf
                rcases List.mem_append.mp hf with hf1 | hf2
                · exact hlogI f hf1
                · rw [List.mem_singleton] at hf2
                  subst hf2
                  exact ⟨k, hkq, hk1⟩
              split at h
              · rw [Except.ok.injEq] at h; subst h
                refine ⟨hrp, hdp, hhwm1, ?_, hlog1⟩
                intro tk
                by_cases htk : tk = ticker
                · obtain ⟨n, hn⟩ := hposI ticker
                  refine ⟨n + k, ?_⟩
                  show (if tk = ticker then s.positions ticker +
                    (handler.execute_order (slips s.slipCount) approved price).quantity
                    else s.positions tk) = _
                  rw [if_pos htk,
                    show (handler.execute_order (slips s.slipCount) approved
                      price).quantity = approved.quantity from rfl,
                    hn, hkq]
                  push_cast; ring
                · obtain ⟨n, hn⟩ := hposI tk
                  refine ⟨n, ?_⟩
                  show (if tk = ticker then _ else s.positions tk) = _
                  rw [if_neg htk, hn]
              · split at h
                · rw [Except.ok.injEq] at h; subst h
                  refine ⟨hrp, hdp, hhwm1, ?_, hlog1⟩
                  intro tk
                  by_cases htk : tk = ticker
                  · obtain ⟨n, hn⟩ := hposI ticker
                    refine ⟨n - k, ?_⟩
                    show (if tk = ticker then s.positions ticker -
                      (handler.execute_order (slips s.slipCount) approved price).quantity
                      else s.positions tk) = _
                    rw [if_pos htk,
                      show (handler.execute_order (slips s.slipCount) approved
                        price).quantity = approved.quantity from rfl,
                      hn, hkq]
                    push_cast; ring
                  · obtain ⟨n, hn⟩ := hposI tk
                    refine ⟨n, ?_⟩
                    show (if tk = ticker then _ else s.positions tk) = _
                    rw [if_neg htk, hn]
                · rw [Except.ok.injEq] at h; subst h
                  exact ⟨hrp, hdp, hhwm1, hposI, hlog1⟩

lemma processTickers_whole (inp : PBInputs) (handler : SimulatedExecutionHandler)
    (slips : ℕ → ℚ) (t : ℕ) (dayTotal : ℚ) (prices : String → Option ℚ)
    (r dd : ℚ) (hr : 0 ≤ r) (hdd : dd ≤ 1) :
    ∀ (tl : List String) (s s1 : SimState),
      processTickers inp handler slips t dayTotal prices s tl = .ok s1 →
      WholeShareInv r dd s → WholeShareInv r dd s1 := by
  intro tl
  induction tl with
  | nil =>
    intro s s1 h hinv
    rw [processTickers, Except.ok.injEq] at h
    subst h; exact hinv
  | cons tk rest ih =>
    intro s s1 h hinv
    rw [processTickers] at h
    rcases hstep : processTicker inp handler slips t dayTotal prices s tk with e | s2
    · rw [hstep] at h; exact Except.noConfusion h
    · rw [hstep] at h
      dsimp only at h
      exact ih s2 s1 h
        (processTicker_whole inp handler slips t dayTotal prices s tk s2 r dd
          hr hdd hstep hinv)

lemma dayStep_whole (inp : PBInputs) (handler : SimulatedExecutionHandler)
    (slips : ℕ → ℚ) (s : SimState) (t : ℕ) (row : PortfolioRow) (s1 : SimState)
    (r dd : ℚ) (hr : 0 ≤ r) (hdd : dd ≤ 1)
    (h : dayStep inp handler slips s t = .ok (row, s1))
    (hinv : WholeShareInv r dd s) : WholeShareInv r dd s1 := by
  unfold dayStep at h
  dsimp only at h
  split at h
  · rcases hpt : processTickers inp handler slips t
        (s.cash + holdingsValue s.positions (allTickers inp) (dayPrices inp t))
        (dayPrices inp t) s (allTickers inp) with e | s2
    · rw [hpt] at h; exact Except.noConfusion h
    · rw [hpt] at h
      dsimp only at h
      rw [Except.ok.injEq, Prod.mk.injEq] at h
      obtain ⟨_, hs1⟩ := h
      subst hs1
      exact processTickers_whole inp handler slips t _ _ r dd hr hdd _ s s2 hpt hinv
  · rw [Except.ok.injEq, Prod.mk.injEq] at h
    obtain ⟨_, hs1⟩ := h
    subst hs1
    exact hinv

lemma runDays_whole (inp : PBInputs) (handler : SimulatedExecutionHandler)
    (slips : ℕ → ℚ) (r dd : ℚ) (hr : 0 ≤ r) (hdd : dd ≤ 1) :
    ∀ (ts : List ℕ) (s : SimState) (rows : List PortfolioRow) (sEnd : SimState),
      runDays inp handler slips s ts = .ok (rows, sEnd) →
      WholeShareInv r dd s →
      WholeShareInv r dd sEnd ∧
      (∀ row ∈ rows, ∀ pr ∈ row.positions, ∃ n : ℤ, pr.2 = (n : ℚ)) := by
  intro ts
  induction ts with
  | nil =>
    intro s rows sEnd h hinv
    rw [runDays, Except.ok.injEq, Prod.mk.injEq] at h
    obtain ⟨hr2, hs⟩ := h
    subst hr2; subst hs
    exact ⟨hinv, fun row hrow => absurd hrow (List.not_mem_nil row)⟩
  | cons t ts ih =>
    intro s rows sEnd h hinv
    rw [runDays] at h
    rcases hday : dayStep inp handler slips s t with e | ⟨row, s1⟩
    · rw [hday] at h; exact Except.noConfusion h
    · rw [hday] at h
      dsimp only at h
      rcases hrest : runDays inp handler slips s1 ts with e | ⟨rows', sE⟩
      · rw [hrest] at h; exact Except.noConfusion h
      · rw [hrest] at h
        dsimp only at h
        rw [Except.ok.injEq, Prod.mk.injEq] at h
        obtain ⟨hr2, hsend⟩ := h
        subst hr2; subst hsend
        have hinv1 : WholeShareInv r dd s1 :=
          dayStep_whole inp handler slips s t row s1 r dd hr hdd hday hinv
        obtain ⟨hinvE, hrowsI⟩ := ih s1 rows' sE hrest hinv1
        refine ⟨hinvE, ?_⟩
        intro rw2 hrw2 pr hpr
        rcases List.mem_cons.mp hrw2 with h1 | h2
        · subst h1
          obtain ⟨_, _, hpos, _, _⟩ := dayStep_spec inp handler slips s t rw2 s1 hday
          rw [hpos] at hpr
          obtain ⟨tk, _, hpr2⟩ := List.mem_map.mp hpr
          obtain ⟨n, hn⟩ := hinv1.2.2.2.1 tk
          exact ⟨n, by rw [← hpr2]; exact hn⟩
        · exact hrowsI rw2 h2 pr hpr

/-- C5: in every run of `PortfolioBacktester.run` whose configured risk
fraction is nonnegative and whose drawdown ceiling is at most 1 (the defaults
are 2% and 20%), every fill appended to the trade log has an integer quantity
of at least one share (`den = 1`, `num ≥ 1`), and consequently every
per-symbol position entry of every portfolio row is an integer. -/
theorem whole_share_fills (cfg : PBConfig) (inp : PBInputs) (slips : ℕ → ℚ)
    (hr : 0 ≤ cfg.max_trade_risk_pct) (hdd : cfg.max_portfolio_drawdown_pct ≤ 1) :
    (∀ f ∈ logOf (PortfolioBacktester.run cfg inp slips),
      f.quantity.den = 1 ∧ 1 ≤ f.quantity.num) ∧
    (∀ row ∈ rowsOf (PortfolioBacktester.run cfg inp slips),
      ∀ pr ∈ row.positions, pr.2.den = 1) := by
  rcases run_destruct cfg inp slips with ⟨hre, hle⟩ | ⟨sEnd, hrun, hlogeq⟩
  · rw [hre, hle]
    exact ⟨fun f hf => absurd hf (List.not_mem_nil f),
      fun row hrow => absurd hrow (List.not_mem_nil row)⟩
  · have hinv0 : WholeShareInv cfg.max_trade_risk_pct cfg.max_portfolio_drawdown_pct
        (initState cfg) := by
      refine ⟨rfl, rfl, le_refl 0, fun tk => ⟨0, by simp [initState]⟩,
        fun f hf => absurd hf (List.not_mem_nil f)⟩
    obtain ⟨hinvE, hrowsI⟩ := runDays_whole inp (execHandler cfg) slips
      cfg.max_trade_risk_pct cfg.max_portfolio_drawdown_pct hr hdd
      (full_timeline inp) (initState cfg) _ sEnd hrun hinv0
    constructor
    · intro f hf
      rw [hlogeq] at hf
      obtain ⟨n, hn, hn1⟩ := hinvE.2.2.2.2 f hf
      refine ⟨by rw [hn]; exact Rat.den_intCast n, ?_⟩
      rw [hn, Rat.num_intCast]
      exact hn1
    · intro row hrow pr hpr
      obtain ⟨n, hn⟩ := hrowsI row hrow pr hpr
      rw [hn]
      exact Rat.den_intCast n

/-- A small-capital configuration for the whole-share witness. -/
def cfgSmall : PBConfig := ⟨100, 1/50, 1/5, 1/2000, 1⟩

/-- Witness: the single fill of a concrete run (quantity 2, capped by the 2%
sizing rule from a proposed 100 shares) has an integer quantity of at least
one share. -/
theorem whole_share_fills_witness :
    (2 : ℚ).den = 1 ∧ 1 ≤ (2 : ℚ).num := by
  have h := (whole_share_fills cfgSmall tradeDayInputs zeroSlips (by decide)
    (by decide)).1 ⟨0, "A", "BUY", 2, 1, 1⟩ (by decide)
  exact h
